import Mathlib

/-!
Verification of the deadline-py-scrapper engine core.

This file gives a shallow embedding, in Lean, of the record/merge/normalize
pipeline of the repository (src/src/engine): Python dicts become insertion
ordered association lists, the merge engine (AbstractSource.merge_lists_by_key),
the date and time normalizers (extract_date_time_from_iso, extract_date_time,
parse_datetime), the per source to_json normalizers, the adapter process
methods (Deadline, Variety, IndieWire) and the orchestrator (Engine.run) become
executable Lean functions. Site specific markup extraction and the network
fetch are external collaborators and enter as function parameters, exactly at
the boundary the code calls them.
-/

set_option maxHeartbeats 1600000

/-- A Python value as it occurs in the scraper records: a string, a list of
strings (paragraph content, category lists) or None. -/
inductive Val where
  | s (str : String)
  | l (items : List String)
  | null
deriving DecidableEq

/-- Whether a value is a list. -/
def Val.isList : Val → Bool
  | Val.l _ => true
  | _ => false

/-- Python truthiness for the values above: empty string, empty list and None
are falsy. -/
def Val.truthy : Val → Bool
  | Val.s str => str ≠ ""
  | Val.l items => items ≠ []
  | Val.null => false

/-- Python hashability: strings and None hash, lists do not. -/
def hashable : Val → Bool
  | Val.l _ => false
  | _ => true

/-- A Python dict with string keys, as the scrapers build for every story:
an insertion ordered association list. -/
abbrev Record := List (String × Val)

/-- Lookup of a field, as Python dict indexing and dict.get: the first (and in
a real dict only) binding of the field. -/
def dget : Record → String → Option Val
  | [], _ => Option.none
  | (g, v) :: r, f => if g = f then Option.some v else dget r f

/-- Python dict assignment d[f] = v: replace the value in place if the field
exists, otherwise append the new binding at the end. -/
def dsetField : Record → String → Val → Record
  | [], f, v => [(f, v)]
  | (g, w) :: r, f, v => if g = f then (f, v) :: r else (g, w) :: dsetField r f v

/-- Python dict.update(other): assign every binding of the other dict in
order. -/
def dupdate (r other : Record) : Record :=
  other.foldl (fun acc p => dsetField acc p.1 p.2) r

/-- A Python dict literal: successive assignment of all pairs into an empty
dict (a repeated key keeps the first position with the later value). -/
def mkDict (pairs : List (String × Val)) : Record :=
  pairs.foldl (fun acc p => dsetField acc p.1 p.2) []

/-- The field names of a record in order. -/
def fieldsOf (r : Record) : List String := r.map Prod.fst

/-- Well-formedness of a record as the image of a Python dict: field names are
distinct. -/
abbrev RecordWF (r : Record) : Prop := (fieldsOf r).Nodup

/-- The merge dictionary of merge_lists_by_key: keyed by the (hashable) value
of the join field. -/
abbrev MDict := List (Val × Record)

/-- The keys of the merge dictionary in insertion order. -/
def keysOf (d : MDict) : List Val := d.map Prod.fst

/-- Lookup in the merge dictionary. -/
def mget : MDict → Val → Option Record
  | [], _ => Option.none
  | (g, r) :: d, k => if g = k then Option.some r else mget d k

/-- Assignment into the merge dictionary: replace in place or append. -/
def msetKey : MDict → Val → Record → MDict
  | [], k, r => [(k, r)]
  | (g, w) :: d, k, r => if g = k then (k, r) :: d else (g, w) :: msetKey d k r

/-- One step of the first merge loop (for item in list1:
merged_dict[item[key]] = item), with the Python failures: KeyError when the
join field is absent, TypeError when its value is unhashable. -/
def insertPhase1 (key : String) (d : MDict) (item : Record) : Except String MDict :=
  match dget item key with
  | Option.none => Except.error "KeyError"
  | Option.some k =>
    if hashable k then Except.ok (msetKey d k item) else Except.error "TypeError"

/-- One step of the second merge loop: update the stored record in place when
the key exists, insert the record verbatim when it is new. -/
def insertPhase2 (key : String) (d : MDict) (item : Record) : Except String MDict :=
  match dget item key with
  | Option.none => Except.error "KeyError"
  | Option.some k =>
    if hashable k then
      match mget d k with
      | Option.some old => Except.ok (msetKey d k (dupdate old item))
      | Option.none => Except.ok (msetKey d k item)
    else Except.error "TypeError"

/-- A fallible left fold, as a Python for loop over records in which a raised
exception aborts the whole call. -/
def foldE (f : MDict → Record → Except String MDict) : MDict → List Record → Except String MDict
  | d, [] => Except.ok d
  | d, item :: rest =>
    match f d item with
    | Except.error e => Except.error e
    | Except.ok d2 => foldE f d2 rest

/-- AbstractSource.merge_lists_by_key (src/src/engine/abstract.py lines
91-109): add all of list1 into a dict keyed by the join field, overlay or
insert every record of list2, return the dict values in insertion order. -/
def merge_lists_by_key (list1 list2 : List Record) (key : String) : Except String (List Record) :=
  match foldE (insertPhase1 key) [] list1 with
  | Except.error e => Except.error e
  | Except.ok d1 =>
    match foldE (insertPhase2 key) d1 list2 with
    | Except.error e => Except.error e
    | Except.ok d2 => Except.ok (d2.map Prod.snd)

/-- Option choice with the left side winning; used to state that a later
assignment overwrites an earlier field. -/
def oOr : Option Val → Option Val → Option Val
  | Option.some v, _ => Option.some v
  | Option.none, b => b

/-- The join key values of a list of records, in order, skipping records
without the join field. -/
def keyvals (key : String) (l : List Record) : List Val :=
  l.filterMap (fun r => dget r key)

/-- The records of a list whose join field carries the value k. -/
def recordsAt (key : String) (k : Val) (B : List Record) : List Record :=
  B.filter (fun b => decide (dget b key = Option.some k))

/-- A record updated by a chain of records in order (repeated dict.update). -/
def updChain (r : Record) (L : List Record) : Record := L.foldl dupdate r

/-- The record a chain of secondary records with a fresh key builds: the first
record inserted verbatim, the rest merged onto it. -/
def chainNew : List Record → Record
  | [] => []
  | b :: rest => updChain b rest

/-- The keys a second merge loop appends, in order of first appearance,
relative to a set of keys already present. -/
def newKeys (key : String) : List Record → List Val → List Val
  | [], _ => []
  | b :: S, ks =>
    match dget b key with
    | Option.some k =>
      if k ∈ ks then newKeys key S ks else k :: newKeys key S (ks ++ [k])
    | Option.none => newKeys key S ks

/-- The last record of a list carrying the join value k, with a default; this
is the record the first merge loop leaves at key k. -/
def lastAt (key : String) (k : Val) (A : List Record) (dflt : Record) : Record :=
  A.foldl (fun acc r => if dget r key = Option.some k then r else acc) dflt

/-- The value the last record of a chain that carries field f gives to f. -/
def chainGet (f : String) (L : List Record) : Option Val :=
  L.foldl (fun acc b => oOr (dget b f) acc) Option.none

/-! Digits and zero padded decimal strings, as strftime and isoformat emit. -/

/-- The decimal digit character of a value below ten. -/
def digitChar : Nat → Char
  | 0 => '0' | 1 => '1' | 2 => '2' | 3 => '3' | 4 => '4'
  | 5 => '5' | 6 => '6' | 7 => '7' | 8 => '8' | _ => '9'

/-- The value of a decimal digit character. -/
def charToDigit (c : Char) : Option Nat :=
  if c = '0' then Option.some 0 else if c = '1' then Option.some 1
  else if c = '2' then Option.some 2 else if c = '3' then Option.some 3
  else if c = '4' then Option.some 4 else if c = '5' then Option.some 5
  else if c = '6' then Option.some 6 else if c = '7' then Option.some 7
  else if c = '8' then Option.some 8 else if c = '9' then Option.some 9
  else Option.none

/-- Two digit zero padded decimal representation, as a character list. -/
def pad2L (n : Nat) : List Char := [digitChar (n / 10), digitChar (n % 10)]

/-- Four digit zero padded decimal representation, as a character list. -/
def pad4L (n : Nat) : List Char :=
  [digitChar (n / 1000), digitChar (n / 100 % 10), digitChar (n / 10 % 10), digitChar (n % 10)]

/-- Six digit zero padded decimal representation (microseconds). -/
def pad6L (n : Nat) : List Char :=
  [digitChar (n / 100000), digitChar (n / 10000 % 10), digitChar (n / 1000 % 10),
   digitChar (n / 100 % 10), digitChar (n / 10 % 10), digitChar (n % 10)]

/-- Parse exactly two decimal digits. -/
def parse2 : List Char → Option (Nat × List Char)
  | a :: b :: rest =>
    match charToDigit a, charToDigit b with
    | Option.some x, Option.some y => Option.some (10 * x + y, rest)
    | _, _ => Option.none
  | _ => Option.none

/-- Parse exactly four decimal digits. -/
def parse4 : List Char → Option (Nat × List Char)
  | a :: b :: c :: d :: rest =>
    match charToDigit a, charToDigit b, charToDigit c, charToDigit d with
    | Option.some x, Option.some y, Option.some z, Option.some w =>
      Option.some (1000 * x + 100 * y + 10 * z + w, rest)
    | _, _, _, _ => Option.none
  | _ => Option.none

/-- Leap year rule of the Gregorian calendar, as the datetime module uses. -/
def isLeap (y : Nat) : Bool := (y % 4 = 0 && y % 100 ≠ 0) || y % 400 = 0

/-- Days in a month, as the datetime constructor validates. -/
def daysInMonth (y m : Nat) : Nat :=
  if m = 2 then (if isLeap y then 29 else 28)
  else if m = 4 ∨ m = 6 ∨ m = 9 ∨ m = 11 then 30
  else 31

/-- A parsed datetime value, as datetime.datetime carries it (the timezone is
only validated, never re-read by the code under verification). -/
structure PyDateTime where
  year : Nat
  month : Nat
  day : Nat
  hour : Nat
  minute : Nat
  second : Nat
  microsecond : Nat
deriving DecidableEq

/-- Validity exactly as the datetime constructor checks it. -/
def PyDateTime.valid (dt : PyDateTime) : Bool :=
  1 ≤ dt.year && dt.year ≤ 9999 && 1 ≤ dt.month && dt.month ≤ 12 &&
  1 ≤ dt.day && dt.day ≤ daysInMonth dt.year dt.month &&
  dt.hour ≤ 23 && dt.minute ≤ 59 && dt.second ≤ 59 && dt.microsecond ≤ 999999

/-- Parse an optional fractional second part of one to six digits after a dot
or comma, scaled to microseconds. -/
def parseFrac (l : List Char) : Option (Nat × List Char) :=
  match l with
  | c :: rest =>
    match charToDigit c with
    | Option.some d0 =>
      let digs := rest.takeWhile (fun c => (charToDigit c).isSome)
      let rest2 := rest.dropWhile (fun c => (charToDigit c).isSome)
      if digs.length ≤ 5 then
        let v := (d0 :: digs.filterMap charToDigit).foldl (fun a d => 10 * a + d) 0
        Option.some (v * 10 ^ (5 - digs.length), rest2)
      else Option.none
    | Option.none => Option.none
  | [] => Option.none

/-- Parse the UTC offset tail of an ISO string: nothing, or a sign followed by
HH:MM and an optional :SS, validated to stay below one day. -/
def parseOffset (l : List Char) : Option Unit :=
  match l with
  | [] => Option.some ()
  | c :: rest =>
    if c = '+' ∨ c = '-' then
      match parse2 rest with
      | Option.some (oh, ':' :: r2) =>
        match parse2 r2 with
        | Option.some (om, r3) =>
          let tail :=
            match r3 with
            | ':' :: r4 =>
              match parse2 r4 with
              | Option.some (os, r5) => if os ≤ 59 then Option.some r5 else Option.none
              | Option.none => Option.none
            | _ => Option.some r3
          match tail with
          | Option.some [] => if oh ≤ 23 ∧ om ≤ 59 then Option.some () else Option.none
          | _ => Option.none
        | Option.none => Option.none
      | _ => Option.none
    else Option.none

/-- Parse the time-of-day part HH:MM[:SS[.ffffff]] of an ISO string, then the
optional offset; returns hour, minute, second and microsecond. -/
def parseTimePart (l : List Char) : Option (Nat × Nat × Nat × Nat) :=
  match parse2 l with
  | Option.some (h, ':' :: r1) =>
    match parse2 r1 with
    | Option.some (mi, r2) =>
      match r2 with
      | ':' :: r3 =>
        match parse2 r3 with
        | Option.some (sec, r4) =>
          match r4 with
          | '.' :: r5 =>
            match parseFrac r5 with
            | Option.some (us, r6) =>
              match parseOffset r6 with
              | Option.some _ => Option.some (h, mi, sec, us)
              | Option.none => Option.none
            | Option.none => Option.none
          | ',' :: r5 =>
            match parseFrac r5 with
            | Option.some (us, r6) =>
              match parseOffset r6 with
              | Option.some _ => Option.some (h, mi, sec, us)
              | Option.none => Option.none
            | Option.none => Option.none
          | _ =>
            match parseOffset r4 with
            | Option.some _ => Option.some (h, mi, sec, 0)
            | Option.none => Option.none
        | Option.none => Option.none
      | _ =>
        match parseOffset r2 with
        | Option.some _ => Option.some (h, mi, 0, 0)
        | Option.none => Option.none
    | _ => Option.none
  | _ => Option.none

/-- datetime.fromisoformat on a character list: a YYYY-MM-DD date, optionally
followed by a one character separator and a time of day with optional offset;
everything range checked as the datetime constructor does. -/
def parseISOChars (l : List Char) : Option PyDateTime :=
  match parse4 l with
  | Option.some (y, '-' :: r1) =>
    match parse2 r1 with
    | Option.some (m, '-' :: r2) =>
      match parse2 r2 with
      | Option.some (d, r3) =>
        match r3 with
        | [] =>
          let dt : PyDateTime := ⟨y, m, d, 0, 0, 0, 0⟩
          if dt.valid then Option.some dt else Option.none
        | _ :: r4 =>
          match parseTimePart r4 with
          | Option.some (h, mi, sec, us) =>
            let dt : PyDateTime := ⟨y, m, d, h, mi, sec, us⟩
            if dt.valid then Option.some dt else Option.none
          | Option.none => Option.none
      | _ => Option.none
    | _ => Option.none
  | _ => Option.none

/-- String replacement of every occurrence of the single character Z by
+00:00, as iso_string.replace("Z", "+00:00") performs. -/
def replaceZL : List Char → List Char
  | [] => []
  | c :: rest => if c = 'Z' then '+' :: '0' :: '0' :: ':' :: '0' :: '0' :: replaceZL rest
                 else c :: replaceZL rest

/-- date.isoformat(): YYYY-MM-DD. -/
def date_isoformat (dt : PyDateTime) : String :=
  String.mk (pad4L dt.year ++ '-' :: pad2L dt.month ++ '-' :: pad2L dt.day)

/-- time.isoformat(): HH:MM:SS, with a fractional part only when the
microsecond field is nonzero. -/
def time_isoformat (dt : PyDateTime) : String :=
  String.mk (pad2L dt.hour ++ ':' :: pad2L dt.minute ++ ':' :: pad2L dt.second ++
    (if dt.microsecond = 0 then [] else '.' :: pad6L dt.microsecond))

/-- AbstractSource.extract_date_time_from_iso (abstract.py lines 23-40): on a
truthy string, replace Z by +00:00, parse with fromisoformat (ValueError on
failure) and return the date and time iso strings; on a falsy string return a
pair of empty strings. -/
def extract_date_time_from_iso (iso_string : String) : Except String (String × String) :=
  match iso_string.toList with
  | [] => Except.ok ("", "")
  | c :: rest =>
    match parseISOChars (replaceZL (c :: rest)) with
    | Option.some dt => Except.ok (date_isoformat dt, time_isoformat dt)
    | Option.none => Except.error "ValueError"

/-! The naive strptime path. datetime.strptime builds a case insensitive
regular expression from the format; for the two formats of the source,
"%B %d, %Y %I:%M%p" and "%b %d, %Y %I:%M%p", the pieces are: a month name
alternation, whitespace runs for blanks, (3[01]|[12]d|0[1-9]|[1-9]) for the
day, four digits for the year, (1[0-2]|0[1-9]|[1-9]) for the 12 hour,
([0-5]d|d) for the minute and an am/pm alternation, anchored at both ends. -/

/-- Space characters of the regex whitespace class that can occur here. -/
def isSpaceChar (c : Char) : Bool := c = ' ' || c = '\t' || c = '\n' || c = '\r'

/-- One or more whitespace characters, as a blank in a strptime format
demands. -/
def skipSpaces1 : List Char → Option (List Char)
  | c :: rest => if isSpaceChar c then Option.some (rest.dropWhile isSpaceChar) else Option.none
  | [] => Option.none

/-- Remove a literal character sequence from the front of the input. -/
def stripPrefixL : List Char → List Char → Option (List Char)
  | [], l => Option.some l
  | _ :: _, [] => Option.none
  | p :: ps, c :: cs => if p = c then stripPrefixL ps cs else Option.none

/-- Match one name of an alternation, returning its month number. -/
def parseMonthName : List (String × Nat) → List Char → Option (Nat × List Char)
  | [], _ => Option.none
  | (nm, idx) :: names, l =>
    match stripPrefixL nm.toList l with
    | Option.some rest => Option.some (idx, rest)
    | Option.none => parseMonthName names l

/-- Full month names (lowercased, as the case insensitive match compares). -/
def monthsFull : List (String × Nat) :=
  [("january", 1), ("february", 2), ("march", 3), ("april", 4), ("may", 5),
   ("june", 6), ("july", 7), ("august", 8), ("september", 9), ("october", 10),
   ("november", 11), ("december", 12)]

/-- Abbreviated month names for the short month variant format. -/
def monthsAbbr : List (String × Nat) :=
  [("jan", 1), ("feb", 2), ("mar", 3), ("apr", 4), ("may", 5), ("jun", 6),
   ("jul", 7), ("aug", 8), ("sep", 9), ("oct", 10), ("nov", 11), ("dec", 12)]

/-- The day of month pattern (3[01]|[12]d|0[1-9]|[1-9]), first alternative
that matches wins. -/
def parseDayNum : List Char → Option (Nat × List Char)
  | [] => Option.none
  | c :: rest =>
    match charToDigit c with
    | Option.none => Option.none
    | Option.some d =>
      if d = 3 then
        match rest with
        | c2 :: rest2 =>
          match charToDigit c2 with
          | Option.some d2 => if d2 ≤ 1 then Option.some (30 + d2, rest2) else Option.some (3, rest)
          | Option.none => Option.some (3, rest)
        | [] => Option.some (3, rest)
      else if d = 1 ∨ d = 2 then
        match rest with
        | c2 :: rest2 =>
          match charToDigit c2 with
          | Option.some d2 => Option.some (10 * d + d2, rest2)
          | Option.none => Option.some (d, rest)
        | [] => Option.some (d, rest)
      else if d = 0 then
        match rest with
        | c2 :: rest2 =>
          match charToDigit c2 with
          | Option.some d2 => if 1 ≤ d2 then Option.some (d2, rest2) else Option.none
          | Option.none => Option.none
        | [] => Option.none
      else Option.some (d, rest)

/-- The 12 hour pattern (1[0-2]|0[1-9]|[1-9]). -/
def parseHour12 : List Char → Option (Nat × List Char)
  | [] => Option.none
  | c :: rest =>
    match charToDigit c with
    | Option.none => Option.none
    | Option.some d =>
      if d = 1 then
        match rest with
        | c2 :: rest2 =>
          match charToDigit c2 with
          | Option.some d2 => if d2 ≤ 2 then Option.some (10 + d2, rest2) else Option.some (1, rest)
          | Option.none => Option.some (1, rest)
        | [] => Option.some (1, rest)
      else if d = 0 then
        match rest with
        | c2 :: rest2 =>
          match charToDigit c2 with
          | Option.some d2 => if 1 ≤ d2 then Option.some (d2, rest2) else Option.none
          | Option.none => Option.none
        | [] => Option.none
      else Option.some (d, rest)

/-- The minute pattern ([0-5]d|d). -/
def parseMinute : List Char → Option (Nat × List Char)
  | [] => Option.none
  | c :: rest =>
    match charToDigit c with
    | Option.none => Option.none
    | Option.some d =>
      if d ≤ 5 then
        match rest with
        | c2 :: rest2 =>
          match charToDigit c2 with
          | Option.some d2 => Option.some (10 * d + d2, rest2)
          | Option.none => Option.some (d, rest)
        | [] => Option.some (d, rest)
      else Option.some (d, rest)

/-- The am/pm alternation on lowercased input; true means pm. -/
def parseAmPm : List Char → Option (Bool × List Char)
  | 'a' :: 'm' :: rest => Option.some (false, rest)
  | 'p' :: 'm' :: rest => Option.some (true, rest)
  | _ => Option.none

/-- strptime with format "month-name day, year hour12:minute am/pm" on the
lowercased input; the whole input must be consumed, and the resulting
datetime is range validated by the datetime constructor. -/
def strptimeNaive (months : List (String × Nat)) (input : List Char) : Option PyDateTime :=
  match parseMonthName months input with
  | Option.none => Option.none
  | Option.some (mo, r1) =>
    match skipSpaces1 r1 with
    | Option.none => Option.none
    | Option.some r2 =>
      match parseDayNum r2 with
      | Option.none => Option.none
      | Option.some (d, r3) =>
        match r3 with
        | ',' :: r4 =>
          match skipSpaces1 r4 with
          | Option.none => Option.none
          | Option.some r5 =>
            match parse4 r5 with
            | Option.none => Option.none
            | Option.some (y, r6) =>
              match skipSpaces1 r6 with
              | Option.none => Option.none
              | Option.some r7 =>
                match parseHour12 r7 with
                | Option.none => Option.none
                | Option.some (h12, r8) =>
                  match r8 with
                  | ':' :: r9 =>
                    match parseMinute r9 with
                    | Option.none => Option.none
                    | Option.some (mi, r10) =>
                      match parseAmPm r10 with
                      | Option.some (pm, []) =>
                        let h24 :=
                          if pm then (if h12 = 12 then 12 else h12 + 12)
                          else (if h12 = 12 then 0 else h12)
                        let dt : PyDateTime := ⟨y, mo, d, h24, mi, 0, 0⟩
                        if dt.valid then Option.some dt else Option.none
                      | _ => Option.none
                  | _ => Option.none
        | _ => Option.none

/-- Lowercased character list of a string, as the case insensitive strptime
match effectively sees it. -/
def lowerChars (s : String) : List Char := s.toList.map Char.toLower

/-- strftime "%H:%M:%S". -/
def strftime_HMS (dt : PyDateTime) : String :=
  String.mk (pad2L dt.hour ++ ':' :: pad2L dt.minute ++ ':' :: pad2L dt.second)

/-- strftime "%I:%M %p": zero padded 12 hour clock with AM/PM. -/
def strftime_IMp (dt : PyDateTime) : String :=
  let h12 := if dt.hour % 12 = 0 then 12 else dt.hour % 12
  String.mk (pad2L h12 ++ ':' :: pad2L dt.minute ++ ' ' ::
    (if dt.hour ≤ 11 then ['A', 'M'] else ['P', 'M']))

/-- AbstractSource.extract_date_time (abstract.py lines 42-53): strptime with
the single format "%B %d, %Y %I:%M%p" and no guard at all, so an input that
does not match raises ValueError; a match is formatted as the
(YYYY-MM-DD, HH:MM:SS) pair. -/
def extract_date_time (date_str : String) : Except String (String × String) :=
  match strptimeNaive monthsFull (lowerChars date_str) with
  | Option.some dt => Except.ok (date_isoformat dt, strftime_HMS dt)
  | Option.none => Except.error "ValueError"

/-- The inner parse_date of AbstractSource.parse_datetime (abstract.py lines
56-63): try the full then the short month format; on failure return the
string sentinel "Invalid date format" instead of a datetime. -/
def parse_date (s : String) : Sum PyDateTime String :=
  match strptimeNaive monthsFull (lowerChars s) with
  | Option.some dt => Sum.inl dt
  | Option.none =>
    match strptimeNaive monthsAbbr (lowerChars s) with
    | Option.some dt => Sum.inl dt
    | Option.none => Sum.inr "Invalid date format"

/-- Removal of every occurrence of "PT", as date_str.replace("PT", "")
performs (left to right, non overlapping). -/
def replacePTL : List Char → List Char
  | [] => []
  | 'P' :: 'T' :: rest => replacePTL rest
  | c :: rest => c :: replacePTL rest

/-- Python str.strip(): drop whitespace from both ends. -/
def stripL (l : List Char) : List Char :=
  ((l.dropWhile isSpaceChar).reverse.dropWhile isSpaceChar).reverse

/-- AbstractSource.parse_datetime (abstract.py lines 55-83): falsy input gives
a pair of empty strings; otherwise "PT" is removed and the result stripped,
parse_date is tried, and the result localized to the Pacific zone.
pytz.localize keeps the wall clock time of a naive datetime unchanged, so the
formatted output only depends on the parsed fields; when parse_date returned
the string sentinel, localize reads its tzinfo attribute, which a string does
not have, and the call raises AttributeError. -/
def parse_datetime (date_str : String) : Except String (String × String) :=
  if date_str = "" then Except.ok ("", "")
  else
    match parse_date (String.mk (stripL (replacePTL date_str.toList))) with
    | Sum.inl dt => Except.ok (date_isoformat dt, strftime_IMp dt)
    | Sum.inr _ => Except.error "AttributeError"

/-! The adapters. A parsed page and the site specific selector logic are
external collaborators: they enter as plain data and function parameters. -/

/-- A parsed HTML page; its structure never matters to the engine core. -/
abbrev Soup := String

/-- The result of requests.get: a status code and a body. -/
structure HttpResponse where
  status : Nat
  content : Soup

/-- get_primary_content as all three adapters implement it: a 200 response
yields the parsed page, anything else yields None (logged only). -/
def get_primary_content (http : String → HttpResponse) (url : String) : Option Soup :=
  let response := http url
  if response.status = 200 then Option.some response.content else Option.none

/-- A Python for loop building a list, in which a raised exception aborts the
whole call. -/
def mapE {α β : Type} (f : α → Except String β) : List α → Except String (List β)
  | [] => Except.ok []
  | x :: xs =>
    match f x with
    | Except.error e => Except.error e
    | Except.ok y =>
      match mapE f xs with
      | Except.error e => Except.error e
      | Except.ok ys => Except.ok (y :: ys)

/-- The list comprehension [story[k] for story in stories]: KeyError when a
story lacks the field. -/
def collectField (field : String) (stories : List Record) : Except String (List Val) :=
  mapE (fun story =>
    match dget story field with
    | Option.some v => Except.ok v
    | Option.none => Except.error "KeyError") stories

/-- The string join sep.join(x): over a list it joins the elements, over a
string it joins the characters, and None raises TypeError. -/
def pyJoin : Val → Except String String
  | Val.l items => Except.ok (String.intercalate ", " items)
  | Val.s str => Except.ok (String.intercalate ", " (str.toList.map (fun c => String.mk [c])))
  | Val.null => Except.error "TypeError"

/-- Python indexing x[0] on a value: head of a list, first character of a
string, IndexError when empty, TypeError on None. -/
def pyIndex0 : Val → Except String Val
  | Val.l (x :: _) => Except.ok (Val.s x)
  | Val.l [] => Except.error "IndexError"
  | Val.s str =>
    match str.toList with
    | c :: _ => Except.ok (Val.s (String.mk [c]))
    | [] => Except.error "IndexError"
  | Val.null => Except.error "TypeError"

/-- The expression obj.get("categories", [])[0] if obj.get("categories")
else "" of the Deadline and Variety to_json. -/
def sourceSectionOf (obj : Record) : Except String Val :=
  match dget obj "categories" with
  | Option.some v => if v.truthy then pyIndex0 v else Except.ok (Val.s "")
  | Option.none => Except.ok (Val.s "")

/-- self.extract_date_time(obj.get("date")) of Deadline.to_json: strptime
demands a string, so a missing field (None) or a non string value raises
TypeError before any parsing. -/
def extract_date_time_field : Option Val → Except String (String × String)
  | Option.some (Val.s str) => extract_date_time str
  | _ => Except.error "TypeError"

/-- self.parse_datetime(obj.get("date")) of Variety.to_json: a falsy value
(None, missing, empty string, empty list) passes the truthiness guard and
yields empty strings; a truthy non string has no replace method and raises
AttributeError; a truthy string is parsed. -/
def parse_datetime_field : Option Val → Except String (String × String)
  | Option.some (Val.s str) => parse_datetime str
  | Option.some (Val.l items) =>
    if items = [] then Except.ok ("", "") else Except.error "AttributeError"
  | Option.some Val.null => Except.ok ("", "")
  | Option.none => Except.ok ("", "")

namespace Deadline

/-- Deadline.to_json loop body (deadline.py lines 213-230): the canonical
record a single merged record normalizes to. The captured pair is the wall
clock reading taken once per to_json call. -/
def to_json_one (captured : String × String) (obj : Record) : Except String Record :=
  match extract_date_time_field (dget obj "date") with
  | Except.error e => Except.error e
  | Except.ok pub =>
    match sourceSectionOf obj with
    | Except.error e => Except.error e
    | Except.ok sec =>
      Except.ok (mkDict [
        ("source", Val.s "deadline"),
        ("sourceIconURL", Val.s "deadline"),
        ("sourceSection", sec),
        ("title", (dget obj "title").getD (Val.s "")),
        ("content", (dget obj "content").getD (Val.s "")),
        ("author", (dget obj "author_name").getD (Val.s "")),
        ("urlArticle", (dget obj "url").getD (Val.s "")),
        ("urlBannerImage", (dget obj "banner").getD (Val.s "")),
        ("urlThumbnailImage", (dget obj "thumbnail").getD (Val.s "")),
        ("publishedDate", Val.s pub.1),
        ("publishedTime", Val.s pub.2),
        ("capturedDate", Val.s captured.1),
        ("capturedTime", Val.s captured.2)])

/-- Deadline.to_json (deadline.py lines 205-231). -/
def to_json (captured : String × String) (objects : List Record) : Except String (List Record) :=
  mapE (to_json_one captured) objects

/-- The merge call of Deadline.process (deadline.py line 26): detail records
are the primary list, listing stubs the secondary list, joined on url. -/
def merge_step (detailed_stories stories : List Record) : Except String (List Record) :=
  merge_lists_by_key detailed_stories stories "url"

/-- Deadline.process (deadline.py lines 14-27). The local stories is
initialized to the empty list before the fetch, but detailed_stories is only
assigned inside the if block, so when the seed fetch fails the merge line
reads a never assigned local and Python raises UnboundLocalError. -/
def process (http : String → HttpResponse) (get_stories : Soup → List Record)
    (process_children : List Val → List Record)
    (captured : String × String) (url : String) : Except String (List Record) :=
  match get_primary_content http url with
  | Option.some firstPageSoup =>
    let stories := get_stories firstPageSoup
    match collectField "url" stories with
    | Except.error e => Except.error e
    | Except.ok parent_links =>
      let detailed_stories := process_children parent_links
      match merge_step detailed_stories stories with
      | Except.error e => Except.error e
      | Except.ok result => to_json captured result
  | Option.none => Except.error "UnboundLocalError"

end Deadline

namespace Variety

/-- Variety.to_json loop body (variety.py lines 231-248). -/
def to_json_one (captured : String × String) (obj : Record) : Except String Record :=
  match parse_datetime_field (dget obj "date") with
  | Except.error e => Except.error e
  | Except.ok pub =>
    match sourceSectionOf obj with
    | Except.error e => Except.error e
    | Except.ok sec =>
      Except.ok (mkDict [
        ("source", Val.s "variety"),
        ("sourceIconURL", Val.s "variety"),
        ("sourceSection", sec),
        ("title", (dget obj "title").getD (Val.s "")),
        ("content", (dget obj "content").getD (Val.s "")),
        ("author", (dget obj "author_name").getD (Val.s "")),
        ("urlArticle", (dget obj "url").getD (Val.s "")),
        ("urlBannerImage", (dget obj "banner").getD (Val.s "")),
        ("urlThumbnailImage", (dget obj "thumbnail").getD (Val.s "")),
        ("publishedDate", Val.s pub.1),
        ("publishedTime", Val.s pub.2),
        ("capturedDate", Val.s captured.1),
        ("capturedTime", Val.s captured.2)])

/-- Variety.to_json (variety.py lines 223-249). -/
def to_json (captured : String × String) (objects : List Record) : Except String (List Record) :=
  mapE (to_json_one captured) objects

/-- The merge call of Variety.process (variety.py line 27). -/
def merge_step (detailed_stories stories : List Record) : Except String (List Record) :=
  merge_lists_by_key detailed_stories stories "url"

/-- Variety.process (variety.py lines 15-28). Variety.process_children wraps
its loop body in a try that returns None on any exception, so it may hand
None to the merge, whose iteration then raises TypeError; and as in Deadline,
a failed seed fetch leaves detailed_stories unassigned, so the merge line
raises UnboundLocalError. -/
def process (http : String → HttpResponse) (get_stories : Soup → List Record)
    (process_children : List Val → Option (List Record))
    (captured : String × String) (url : String) : Except String (List Record) :=
  match get_primary_content http url with
  | Option.some firstPageSoup =>
    let stories := get_stories firstPageSoup
    match collectField "url" stories with
    | Except.error e => Except.error e
    | Except.ok parent_links =>
      match process_children parent_links with
      | Option.some detailed_stories =>
        match merge_step detailed_stories stories with
        | Except.error e => Except.error e
        | Except.ok result => to_json captured result
      | Option.none => Except.error "TypeError"
  | Option.none => Except.error "UnboundLocalError"

end Variety

namespace IndieWire

/-- IndieWire.to_json loop body (indiewire.py lines 165-200). The dict
literal repeats the key urlArticle; the second occurrence overwrites the
value at the position of the first. The content value is guarded by an
isinstance list check, and publishedDate and publishedTime are filled from
the captured wall clock pair, not from a parsed date. -/
def to_json_one (captured : String × String) (obj : Record) : Except String Record :=
  match pyJoin ((dget obj "category").getD (Val.l [])) with
  | Except.error e => Except.error e
  | Except.ok sec =>
    Except.ok (mkDict [
      ("source", Val.s "indiewire"),
      ("sourceIconURL", Val.s "indiewire"),
      ("sourceSection", Val.s sec),
      ("title", (dget obj "title").getD (Val.s "")),
      ("content", match dget obj "content" with
        | Option.some (Val.l items) => Val.l items
        | _ => Val.l []),
      ("author", (dget obj "author").getD (Val.s "")),
      ("urlArticle", (dget obj "url").getD (Val.s "")),
      ("link", (dget obj "link").getD (Val.s "")),
      ("urlArticle", (dget obj "link").getD (Val.s "")),
      ("urlBannerImage", (dget obj "banner").getD (Val.s "")),
      ("urlThumbnailImage", (dget obj "banner").getD (Val.s "")),
      ("date", (dget obj "time").getD (Val.s "")),
      ("categories", (dget obj "category").getD (Val.s "")),
      ("publishedDate", Val.s captured.1),
      ("publishedTime", Val.s captured.2),
      ("capturedDate", Val.s captured.1),
      ("capturedTime", Val.s captured.2)])

/-- IndieWire.to_json (indiewire.py lines 161-202). -/
def to_json (captured : String × String) (objects : List Record) : Except String (List Record) :=
  mapE (to_json_one captured) objects

/-- The merge call of IndieWire.process (indiewire.py line 20): detail
records primary, listing stubs secondary, joined on link. -/
def merge_step (detailed_stories stories : List Record) : Except String (List Record) :=
  merge_lists_by_key detailed_stories stories "link"

/-- IndieWire.process (indiewire.py lines 14-22): everything happens inside
the if soup block, and a failed seed fetch returns the empty list. -/
def process (http : String → HttpResponse) (get_stories : Soup → List Record)
    (process_children : List Val → List Record)
    (captured : String × String) (url : String) : Except String (List Record) :=
  match get_primary_content http url with
  | Option.some soup =>
    let stories := get_stories soup
    match collectField "link" stories with
    | Except.error e => Except.error e
    | Except.ok parent_links =>
      let detailed_stories := process_children parent_links
      match merge_step detailed_stories stories with
      | Except.error e => Except.error e
      | Except.ok result => to_json captured result
  | Option.none => Except.ok []

end IndieWire

/-- One entry of the orchestrator configuration: the enabled flag, the seed
url, and the instantiated adapter behind its process method. -/
structure SourceConfig where
  enabled : Bool
  url : String
  proc : String → Except String (List Record)

namespace Engine

/-- The loop of Engine.run with its accumulator all_results; an adapter error
is not caught and aborts the remaining entries. -/
def runAux : List SourceConfig → List Record → Except String (List Record)
  | [], acc => Except.ok acc
  | source_info :: rest, acc =>
    if source_info.enabled then
      match source_info.proc source_info.url with
      | Except.error e => Except.error e
      | Except.ok results => runAux rest (acc ++ results)
    else runAux rest acc

/-- Engine.run (engine.py lines 43-51): visit the configured entries in
order, skip disabled ones, call process on each enabled adapter and extend
one accumulating list. -/
def run (sources : List SourceConfig) : Except String (List Record) :=
  runAux sources []

end Engine

/-! Lemmas about records as association lists. -/

theorem dget_eq_none_iff (r : Record) (f : String) :
    dget r f = Option.none ↔ f ∉ fieldsOf r := by
  induction r with
  | nil => simp [dget, fieldsOf]
  | cons p t ih =>
    obtain ⟨g, v⟩ := p
    by_cases h : g = f
    · subst h
      simp [dget, fieldsOf]
    · simp [dget, h, fieldsOf, ih, Ne.symm h]

theorem dget_isSome_iff (r : Record) (f : String) :
    (dget r f).isSome = true ↔ f ∈ fieldsOf r := by
  rcases h : dget r f with _ | v
  · simp [(dget_eq_none_iff r f).mp h]
  · have : f ∈ fieldsOf r := by
      by_contra hf
      rw [(dget_eq_none_iff r f).mpr hf] at h
      exact Option.noConfusion h
    simp [this]

theorem dget_dsetField_self (r : Record) (f : String) (v : Val) :
    dget (dsetField r f v) f = Option.some v := by
  induction r with
  | nil => simp [dsetField, dget]
  | cons p t ih =>
    obtain ⟨g, w⟩ := p
    by_cases h : g = f
    · simp [dsetField, h, dget]
    · simp [dsetField, h, dget, ih]

theorem dget_dsetField_other (r : Record) (f g : String) (v : Val) (hne : g ≠ f) :
    dget (dsetField r f v) g = dget r g := by
  induction r with
  | nil => simp [dsetField, dget, Ne.symm hne]
  | cons p t ih =>
    obtain ⟨g0, w⟩ := p
    by_cases h : g0 = f
    · subst h
      simp [dsetField, dget, Ne.symm hne, hne]
    · by_cases h2 : g0 = g
      · subst h2
        simp [dsetField, h, dget]
      · simp [dsetField, h, dget, h2, ih]

theorem fieldsOf_cons (g : String) (w : Val) (t : Record) :
    fieldsOf ((g, w) :: t) = g :: fieldsOf t := rfl

theorem fieldsOf_dsetField (r : Record) (f : String) (v : Val) :
    fieldsOf (dsetField r f v) =
      if f ∈ fieldsOf r then fieldsOf r else fieldsOf r ++ [f] := by
  induction r with
  | nil => simp [dsetField, fieldsOf]
  | cons p t ih =>
    obtain ⟨g, w⟩ := p
    by_cases h : g = f
    · subst h
      simp [dsetField, fieldsOf]
    · have hfg : f ≠ g := fun he => h he.symm
      have hcons : dsetField ((g, w) :: t) f v = (g, w) :: dsetField t f v := by
        simp [dsetField, h]
      rw [hcons, fieldsOf_cons, ih, fieldsOf_cons]
      by_cases hm : f ∈ fieldsOf t
      · rw [if_pos hm, if_pos (by simp [hm])]
      · rw [if_neg hm, if_neg (by simp [hm, hfg])]
        rfl

theorem RecordWF_dsetField (r : Record) (f : String) (v : Val) (h : RecordWF r) :
    RecordWF (dsetField r f v) := by
  unfold RecordWF at h ⊢
  rw [fieldsOf_dsetField]
  by_cases hm : f ∈ fieldsOf r
  · simpa [hm] using h
  · rw [if_neg hm, List.nodup_append]
    refine ⟨h, List.nodup_singleton f, ?_⟩
    intro x hx hxf
    rw [List.mem_singleton] at hxf
    subst hxf
    exact hm hx

theorem dget_dupdate (r b : Record) (hb : RecordWF b) (f : String) :
    dget (dupdate r b) f = oOr (dget b f) (dget r f) := by
  induction b generalizing r with
  | nil => simp [dupdate, dget, oOr]
  | cons p t ih =>
    obtain ⟨g, w⟩ := p
    have hb2 : (g :: fieldsOf t).Nodup := hb
    have hwf : RecordWF t := hb2.of_cons
    have hg : g ∉ fieldsOf t := (List.nodup_cons.mp hb2).1
    have step : dupdate r ((g, w) :: t) = dupdate (dsetField r g w) t := by
      simp [dupdate]
    rw [step, ih (dsetField r g w) hwf]
    by_cases h : g = f
    · subst h
      rw [(dget_eq_none_iff t g).mpr hg]
      simp [dget, dget_dsetField_self, oOr]
    · rw [dget_dsetField_other r g f w (fun he => h he.symm)]
      simp [dget, h]

theorem fieldsOf_dupdate (r b : Record) (hb : RecordWF b) :
    fieldsOf (dupdate r b) =
      fieldsOf r ++ (fieldsOf b).filter (fun f => decide (f ∉ fieldsOf r)) := by
  induction b generalizing r with
  | nil => simp [dupdate, fieldsOf]
  | cons p t ih =>
    obtain ⟨g, w⟩ := p
    have hb2 : (g :: fieldsOf t).Nodup := hb
    have hwf : RecordWF t := hb2.of_cons
    have hg : g ∉ fieldsOf t := (List.nodup_cons.mp hb2).1
    have step : dupdate r ((g, w) :: t) = dupdate (dsetField r g w) t := by
      simp [dupdate]
    rw [step, ih (dsetField r g w) hwf, fieldsOf_dsetField]
    by_cases hm : g ∈ fieldsOf r
    · rw [if_pos hm, fieldsOf_cons]
      have : (g :: fieldsOf t).filter (fun f => decide (f ∉ fieldsOf r)) =
          (fieldsOf t).filter (fun f => decide (f ∉ fieldsOf r)) := by
        simp [hm]
      rw [this]
    · rw [if_neg hm, fieldsOf_cons]
      have h1 : (fieldsOf t).filter (fun f => decide (f ∉ fieldsOf r ++ [g])) =
          (fieldsOf t).filter (fun f => decide (f ∉ fieldsOf r)) := by
        apply List.filter_congr
        intro x hx
        have hxg : x ≠ g := fun he => hg (he ▸ hx)
        simp [List.mem_append, hxg]
      have h2 : (g :: fieldsOf t).filter (fun f => decide (f ∉ fieldsOf r)) =
          g :: (fieldsOf t).filter (fun f => decide (f ∉ fieldsOf r)) := by
        simp [hm]
      rw [h1, h2, List.append_assoc]
      rfl

theorem RecordWF_dupdate (r b : Record) (hr : RecordWF r) (hb : RecordWF b) :
    RecordWF (dupdate r b) := by
  unfold RecordWF
  rw [fieldsOf_dupdate r b hb]
  rw [List.nodup_append]
  refine ⟨hr, List.Nodup.filter _ hb, ?_⟩
  intro x hx hy
  have hnp := List.of_mem_filter hy
  simp at hnp
  exact hnp hx

theorem record_ext : ∀ (r s : Record), RecordWF r → RecordWF s →
    fieldsOf r = fieldsOf s → (∀ f, dget r f = dget s f) → r = s
  | [], [], _, _, _, _ => rfl
  | [], q :: u, _, _, hfields, _ => absurd hfields (by simp [fieldsOf])
  | p :: t, [], _, _, hfields, _ => absurd hfields (by simp [fieldsOf])
  | (g, v) :: t, (g2, w) :: u, hr, hs, hfields, hget => by
    rw [fieldsOf_cons, fieldsOf_cons] at hfields
    have hg : g = g2 := (List.cons_eq_cons.mp hfields).1
    subst hg
    have hvw : v = w := by
      have := hget g
      simpa [dget] using this
    subst hvw
    have hr2 : (g :: fieldsOf t).Nodup := hr
    have hs2 : (g :: fieldsOf u).Nodup := hs
    have hgt : g ∉ fieldsOf t := (List.nodup_cons.mp hr2).1
    have hgu : g ∉ fieldsOf u := (List.nodup_cons.mp hs2).1
    have htails : t = u := by
      apply record_ext t u hr2.of_cons hs2.of_cons (List.cons_eq_cons.mp hfields).2
      intro f
      by_cases hf : g = f
      · subst hf
        rw [(dget_eq_none_iff t g).mpr hgt, (dget_eq_none_iff u g).mpr hgu]
      · have := hget f
        simpa [dget, hf] using this
    rw [htails]

/-! Lemmas about update chains. -/

theorem updChain_nil (r : Record) : updChain r [] = r := rfl

theorem updChain_cons (r b : Record) (L : List Record) :
    updChain r (b :: L) = updChain (dupdate r b) L := rfl

theorem oOr_none_right (a : Option Val) : oOr a Option.none = a := by
  cases a <;> rfl

theorem oOr_assoc (a b c : Option Val) : oOr (oOr a b) c = oOr a (oOr b c) := by
  cases a <;> rfl

theorem chainGet_acc (f : String) (L : List Record) (init : Option Val) :
    L.foldl (fun acc b => oOr (dget b f) acc) init = oOr (chainGet f L) init := by
  induction L generalizing init with
  | nil => simp [chainGet, oOr]
  | cons b t ih =>
    have hcons : chainGet f (b :: t) = oOr (chainGet f t) (dget b f) := by
      show List.foldl (fun acc b => oOr (dget b f) acc) (oOr (dget b f) Option.none) t = _
      rw [ih (oOr (dget b f) Option.none), oOr_none_right]
    rw [List.foldl_cons, ih (oOr (dget b f) init), hcons, oOr_assoc]

theorem chainGet_cons (f : String) (b : Record) (L : List Record) :
    chainGet f (b :: L) = oOr (chainGet f L) (dget b f) := by
  show List.foldl (fun acc b => oOr (dget b f) acc) (oOr (dget b f) Option.none) L = _
  rw [chainGet_acc f L (oOr (dget b f) Option.none), oOr_none_right]

theorem dget_updChain (r : Record) (L : List Record) (hL : ∀ b ∈ L, RecordWF b)
    (f : String) : dget (updChain r L) f = oOr (chainGet f L) (dget r f) := by
  induction L generalizing r with
  | nil => simp [updChain, chainGet, oOr]
  | cons b t ih =>
    rw [updChain_cons, ih (dupdate r b) (fun x hx => hL x (List.mem_cons_of_mem b hx)),
      dget_dupdate r b (hL b (List.mem_cons_self b t)) f, chainGet_cons, oOr_assoc]

theorem RecordWF_updChain (r : Record) (L : List Record) (hr : RecordWF r)
    (hL : ∀ b ∈ L, RecordWF b) : RecordWF (updChain r L) := by
  induction L generalizing r with
  | nil => exact hr
  | cons b t ih =>
    rw [updChain_cons]
    exact ih (dupdate r b) (RecordWF_dupdate r b hr (hL b (List.mem_cons_self b t)))
      (fun x hx => hL x (List.mem_cons_of_mem b hx))

theorem fieldsOf_updChain_of_subset (r : Record) (L : List Record)
    (hL : ∀ b ∈ L, RecordWF b) (hsub : ∀ b ∈ L, ∀ f ∈ fieldsOf b, f ∈ fieldsOf r) :
    fieldsOf (updChain r L) = fieldsOf r := by
  induction L generalizing r with
  | nil => rfl
  | cons b t ih =>
    rw [updChain_cons]
    have hbw : RecordWF b := hL b (List.mem_cons_self b t)
    have hfields : fieldsOf (dupdate r b) = fieldsOf r := by
      rw [fieldsOf_dupdate r b hbw]
      have : (fieldsOf b).filter (fun f => decide (f ∉ fieldsOf r)) = [] := by
        rw [List.filter_eq_nil_iff]
        intro a ha
        simp [hsub b (List.mem_cons_self b t) a ha]
      rw [this, List.append_nil]
    rw [ih (dupdate r b) (fun x hx => hL x (List.mem_cons_of_mem b hx))
      (fun x hx f hf => hfields ▸ hsub x (List.mem_cons_of_mem b hx) f hf), hfields]

theorem mem_fieldsOf_updChain (r : Record) (L : List Record) (hL : ∀ b ∈ L, RecordWF b)
    (f : String) (hf : f ∈ fieldsOf r ∨ ∃ b ∈ L, f ∈ fieldsOf b) :
    f ∈ fieldsOf (updChain r L) := by
  induction L generalizing r with
  | nil =>
    rcases hf with hf | ⟨b, hb, _⟩
    · exact hf
    · exact absurd hb (List.not_mem_nil b)
  | cons b t ih =>
    rw [updChain_cons]
    have hbw : RecordWF b := hL b (List.mem_cons_self b t)
    have hmono : ∀ g, g ∈ fieldsOf r ∨ g ∈ fieldsOf b → g ∈ fieldsOf (dupdate r b) := by
      intro g hg
      rw [fieldsOf_dupdate r b hbw]
      by_cases hgr : g ∈ fieldsOf r
      · exact List.mem_append_left _ hgr
      · rcases hg with hg | hg
        · exact absurd hg hgr
        · exact List.mem_append_right _ (List.mem_filter.mpr ⟨hg, by simp [hgr]⟩)
    apply ih (dupdate r b) (fun x hx => hL x (List.mem_cons_of_mem b hx))
    rcases hf with hf | ⟨x, hx, hfx⟩
    · exact Or.inl (hmono f (Or.inl hf))
    · rcases List.mem_cons.mp hx with hx | hx
      · exact Or.inl (hmono f (Or.inr (hx ▸ hfx)))
      · exact Or.inr ⟨x, hx, hfx⟩

theorem updChain_absorb (s : Record) (L : List Record) (hs : RecordWF s)
    (hL : ∀ b ∈ L, RecordWF b)
    (hsub : ∀ b ∈ L, ∀ f ∈ fieldsOf b, f ∈ fieldsOf s)
    (habs : ∀ f v, chainGet f L = Option.some v → dget s f = Option.some v) :
    updChain s L = s := by
  apply record_ext _ _ (RecordWF_updChain s L hs hL) hs
  · exact fieldsOf_updChain_of_subset s L hL hsub
  · intro f
    rw [dget_updChain s L hL f]
    rcases h : chainGet f L with _ | v
    · rfl
    · rw [habs f v h]
      rfl

/-! Lemmas about the merge dictionary. -/

theorem keysOf_cons (k : Val) (r : Record) (d : MDict) :
    keysOf ((k, r) :: d) = k :: keysOf d := rfl

theorem mget_eq_none_iff (d : MDict) (k : Val) :
    mget d k = Option.none ↔ k ∉ keysOf d := by
  induction d with
  | nil => simp [mget, keysOf]
  | cons p t ih =>
    obtain ⟨g, r⟩ := p
    by_cases h : g = k
    · subst h
      simp [mget, keysOf]
    · simp [mget, h, keysOf, ih, Ne.symm h]

theorem mget_mem_keys (d : MDict) (k : Val) (r : Record) (h : mget d k = Option.some r) :
    k ∈ keysOf d := by
  by_contra hk
  rw [(mget_eq_none_iff d k).mpr hk] at h
  exact Option.noConfusion h

theorem msetKey_append (d : MDict) (k : Val) (r : Record) (h : k ∉ keysOf d) :
    msetKey d k r = d ++ [(k, r)] := by
  induction d with
  | nil => rfl
  | cons p t ih =>
    obtain ⟨g, w⟩ := p
    rw [keysOf_cons, List.mem_cons] at h
    push_neg at h
    have hgk : ¬ g = k := fun he => h.1 he.symm
    show msetKey ((g, w) :: t) k r = (g, w) :: (t ++ [(k, r)])
    simp [msetKey, hgk, ih h.2]

theorem msetKey_map (d : MDict) (k : Val) (r0 r : Record)
    (hd : (keysOf d).Nodup) (h : mget d k = Option.some r0) :
    msetKey d k r = d.map (fun e => if e.1 = k then (k, r) else e) := by
  induction d with
  | nil => exact absurd h (by simp [mget])
  | cons p t ih =>
    obtain ⟨g, w⟩ := p
    rw [keysOf_cons] at hd
    by_cases hg : g = k
    · subst hg
      have hgk : g ∉ keysOf t := (List.nodup_cons.mp hd).1
      have hmap : t.map (fun e => if e.1 = g then (g, r) else e) = t := by
        conv_rhs => rw [← List.map_id t]
        apply List.map_congr_left
        intro e he
        have : e.1 ≠ g := fun hx => hgk (hx ▸ List.mem_map_of_mem Prod.fst he)
        simp [this]
      simp [msetKey, hmap]
    · have h2 : mget t k = Option.some r0 := by
        simpa [mget, hg] using h
      simp [msetKey, hg, ih (List.nodup_cons.mp hd).2 h2]

theorem keysOf_msetKey_mem (d : MDict) (k : Val) (r0 r : Record)
    (hd : (keysOf d).Nodup) (h : mget d k = Option.some r0) :
    keysOf (msetKey d k r) = keysOf d := by
  rw [msetKey_map d k r0 r hd h]
  unfold keysOf
  rw [List.map_map]
  apply List.map_congr_left
  intro e he
  by_cases hk : e.1 = k
  · simp [hk]
  · simp [hk]

theorem nodup_keys_msetKey (d : MDict) (k : Val) (r : Record)
    (hd : (keysOf d).Nodup) : (keysOf (msetKey d k r)).Nodup := by
  rcases h : mget d k with _ | r0
  · rw [msetKey_append d k r ((mget_eq_none_iff d k).mp h)]
    unfold keysOf
    rw [List.map_append]
    rw [List.nodup_append]
    refine ⟨hd, List.nodup_singleton k, ?_⟩
    intro x hx hxk
    simp at hxk
    subst hxk
    exact (mget_eq_none_iff d x).mp h hx
  · rw [keysOf_msetKey_mem d k r0 r hd h]
    exact hd

theorem mget_of_mem_nodup (d : MDict) (k : Val) (r : Record)
    (hd : (keysOf d).Nodup) (h : (k, r) ∈ d) : mget d k = Option.some r := by
  induction d with
  | nil => exact absurd h (List.not_mem_nil _)
  | cons p t ih =>
    obtain ⟨g, w⟩ := p
    rw [keysOf_cons] at hd
    rcases List.mem_cons.mp h with h1 | h1
    · simp only [Prod.mk.injEq] at h1
      obtain ⟨hk, hr⟩ := h1
      subst hk
      subst hr
      simp [mget]
    · have hgk : g ≠ k := by
        intro he
        subst he
        exact (List.nodup_cons.mp hd).1 (List.mem_map_of_mem Prod.fst h1)
      simp [mget, hgk]
      exact ih (List.nodup_cons.mp hd).2 h1

/-! Lemmas about the closed form helpers. -/

theorem recordsAt_cons_hit (key : String) (k : Val) (b : Record) (S : List Record)
    (h : dget b key = Option.some k) :
    recordsAt key k (b :: S) = b :: recordsAt key k S := by
  simp [recordsAt, h]

theorem recordsAt_cons_miss (key : String) (k : Val) (b : Record) (S : List Record)
    (h : ¬ dget b key = Option.some k) :
    recordsAt key k (b :: S) = recordsAt key k S := by
  simp [recordsAt, h]

theorem mem_recordsAt (key : String) (k : Val) (B : List Record) (x : Record) :
    x ∈ recordsAt key k B ↔ x ∈ B ∧ dget x key = Option.some k := by
  unfold recordsAt
  rw [List.mem_filter]
  simp

theorem recordsAt_eq_nil (key : String) (k : Val) (B : List Record)
    (h : ∀ b ∈ B, ¬ dget b key = Option.some k) : recordsAt key k B = [] := by
  unfold recordsAt
  rw [List.filter_eq_nil_iff]
  intro b hb
  simp [h b hb]

theorem lastAt_cons_hit (key : String) (k : Val) (r : Record) (A : List Record)
    (dflt : Record) (h : dget r key = Option.some k) :
    lastAt key k (r :: A) dflt = lastAt key k A r := by
  simp [lastAt, h]

theorem lastAt_cons_miss (key : String) (k : Val) (r : Record) (A : List Record)
    (dflt : Record) (h : ¬ dget r key = Option.some k) :
    lastAt key k (r :: A) dflt = lastAt key k A dflt := by
  simp [lastAt, h]

theorem lastAt_of_none (key : String) (k : Val) (A : List Record) (dflt : Record)
    (h : ∀ r ∈ A, ¬ dget r key = Option.some k) : lastAt key k A dflt = dflt := by
  induction A generalizing dflt with
  | nil => rfl
  | cons r S ih =>
    rw [lastAt_cons_miss key k r S dflt (h r (List.mem_cons_self r S))]
    exact ih dflt (fun x hx => h x (List.mem_cons_of_mem r hx))

theorem lastAt_mem (key : String) (k : Val) (A : List Record) (dflt : Record)
    (h : ∃ r ∈ A, dget r key = Option.some k) :
    lastAt key k A dflt ∈ A ∧ dget (lastAt key k A dflt) key = Option.some k := by
  induction A generalizing dflt with
  | nil =>
    obtain ⟨r, hr, _⟩ := h
    exact absurd hr (List.not_mem_nil r)
  | cons r S ih =>
    by_cases hrk : dget r key = Option.some k
    · rw [lastAt_cons_hit key k r S dflt hrk]
      by_cases hS : ∃ x ∈ S, dget x key = Option.some k
      · obtain ⟨h1, h2⟩ := ih r hS
        exact ⟨List.mem_cons_of_mem r h1, h2⟩
      · push_neg at hS
        rw [lastAt_of_none key k S r (fun x hx he => hS x hx he)]
        exact ⟨List.mem_cons_self r S, hrk⟩
    · rw [lastAt_cons_miss key k r S dflt hrk]
      have hS : ∃ x ∈ S, dget x key = Option.some k := by
        obtain ⟨x, hx, hxe⟩ := h
        rcases List.mem_cons.mp hx with h1 | h1
        · exact absurd (h1 ▸ hxe) hrk
        · exact ⟨x, h1, hxe⟩
      obtain ⟨h1, h2⟩ := ih dflt hS
      exact ⟨List.mem_cons_of_mem r h1, h2⟩

theorem not_mem_of_mem_newKeys (key : String) (B : List Record) :
    ∀ ks k, k ∈ newKeys key B ks → k ∉ ks := by
  induction B with
  | nil => intro ks k h; exact absurd h (List.not_mem_nil k)
  | cons b S ih =>
    intro ks k h
    rcases hb : dget b key with _ | k0
    · simp only [newKeys, hb] at h
      exact ih ks k h
    · simp only [newKeys, hb] at h
      by_cases hm : k0 ∈ ks
      · rw [if_pos hm] at h
        exact ih ks k h
      · rw [if_neg hm] at h
        rcases List.mem_cons.mp h with h1 | h1
        · subst h1
          exact hm
        · intro hk
          exact ih (ks ++ [k0]) k h1 (List.mem_append_left _ hk)

theorem newKeys_nodup (key : String) (B : List Record) :
    ∀ ks, (newKeys key B ks).Nodup := by
  induction B with
  | nil => intro ks; exact List.nodup_nil
  | cons b S ih =>
    intro ks
    rcases hb : dget b key with _ | k0
    · simp only [newKeys, hb]
      exact ih ks
    · simp only [newKeys, hb]
      by_cases hm : k0 ∈ ks
      · rw [if_pos hm]
        exact ih ks
      · rw [if_neg hm]
        rw [List.nodup_cons]
        refine ⟨?_, ih (ks ++ [k0])⟩
        intro hk
        exact not_mem_of_mem_newKeys key S (ks ++ [k0]) k0 hk
          (List.mem_append_right _ (List.mem_singleton.mpr rfl))

theorem mem_newKeys_or (key : String) (B : List Record) :
    ∀ ks b k, b ∈ B → dget b key = Option.some k → k ∈ ks ∨ k ∈ newKeys key B ks := by
  induction B with
  | nil => intro ks b k hb _; exact absurd hb (List.not_mem_nil b)
  | cons b0 S ih =>
    intro ks b k hb hk
    rcases hb0 : dget b0 key with _ | k0
    · simp only [newKeys, hb0]
      rcases List.mem_cons.mp hb with h1 | h1
      · subst h1
        rw [hb0] at hk
        exact absurd hk (Option.noConfusion)
      · exact ih ks b k h1 hk
    · simp only [newKeys, hb0]
      by_cases hm : k0 ∈ ks
      · rw [if_pos hm]
        rcases List.mem_cons.mp hb with h1 | h1
        · subst h1
          rw [hb0] at hk
          exact Or.inl ((Option.some.inj hk) ▸ hm)
        · exact ih ks b k h1 hk
      · rw [if_neg hm]
        rcases List.mem_cons.mp hb with h1 | h1
        · subst h1
          rw [hb0] at hk
          have : k = k0 := (Option.some.inj hk).symm
          subst this
          exact Or.inr (List.mem_cons_self k (newKeys key S (ks ++ [k])))
        · rcases ih (ks ++ [k0]) b k h1 hk with h2 | h2
          · rcases List.mem_append.mp h2 with h3 | h3
            · exact Or.inl h3
            · rw [List.mem_singleton] at h3
              subst h3
              exact Or.inr (List.mem_cons_self k _)
          · exact Or.inr (List.mem_cons_of_mem k0 h2)

theorem newKeys_eq_nil (key : String) (B : List Record) :
    ∀ ks, (∀ b ∈ B, ∀ k, dget b key = Option.some k → k ∈ ks) → newKeys key B ks = [] := by
  induction B with
  | nil => intro ks _; rfl
  | cons b S ih =>
    intro ks h
    rcases hb : dget b key with _ | k0
    · simp only [newKeys, hb]
      exact ih ks (fun x hx => h x (List.mem_cons_of_mem b hx))
    · simp only [newKeys, hb]
      rw [if_pos (h b (List.mem_cons_self b S) k0 hb)]
      exact ih ks (fun x hx => h x (List.mem_cons_of_mem b hx))

/-! Closed forms of the two merge loops. -/

theorem foldE_phase1_closed (key : String) (A : List Record) :
    ∀ d : MDict, (∀ r ∈ A, ∃ k, dget r key = Option.some k ∧ hashable k = true) →
    (keysOf d).Nodup →
    foldE (insertPhase1 key) d A = Except.ok (
      d.map (fun e => (e.1, lastAt key e.1 A e.2)) ++
      (newKeys key A (keysOf d)).map (fun k => (k, lastAt key k A []))) := by
  induction A with
  | nil =>
    intro d _ _
    have h1 : d.map (fun e => (e.1, lastAt key e.1 ([] : List Record) e.2)) = d := by
      conv_rhs => rw [← List.map_id d]
      exact List.map_congr_left (fun e _ => rfl)
    simp only [newKeys, List.map_nil, List.append_nil, h1]
    rfl
  | cons r S ih =>
    intro d hA hd
    obtain ⟨k, hk, hh⟩ := hA r (List.mem_cons_self r S)
    have hAS : ∀ x ∈ S, ∃ k2, dget x key = Option.some k2 ∧ hashable k2 = true :=
      fun x hx => hA x (List.mem_cons_of_mem r hx)
    have hfold : foldE (insertPhase1 key) d (r :: S) =
        foldE (insertPhase1 key) (msetKey d k r) S := by
      simp [foldE, insertPhase1, hk, hh]
    rw [hfold]
    rcases hmg : mget d k with _ | r0
    · have hknot : k ∉ keysOf d := (mget_eq_none_iff d k).mp hmg
      rw [msetKey_append d k r hknot]
      have hkeys1 : keysOf (d ++ [(k, r)]) = keysOf d ++ [k] := by
        unfold keysOf
        rw [List.map_append]
        rfl
      have hnd1 : (keysOf (d ++ [(k, r)])).Nodup := by
        rw [hkeys1, List.nodup_append]
        refine ⟨hd, List.nodup_singleton k, ?_⟩
        intro x hx hxk
        rw [List.mem_singleton] at hxk
        exact hknot (hxk ▸ hx)
      rw [ih (d ++ [(k, r)]) hAS hnd1, hkeys1]
      have hnew : newKeys key (r :: S) (keysOf d) = k :: newKeys key S (keysOf d ++ [k]) := by
        simp only [newKeys, hk]
        rw [if_neg hknot]
      rw [hnew]
      have hmap1 : (d ++ [(k, r)]).map (fun e => (e.1, lastAt key e.1 S e.2)) =
          d.map (fun e => (e.1, lastAt key e.1 (r :: S) e.2)) ++
            [(k, lastAt key k (r :: S) [])] := by
        rw [List.map_append]
        congr 1
        · apply List.map_congr_left
          intro e he
          have hmiss : ¬ dget r key = Option.some e.1 := by
            rw [hk]
            intro hc
            exact hknot ((Option.some.inj hc) ▸ List.mem_map_of_mem Prod.fst he)
          rw [lastAt_cons_miss key e.1 r S e.2 hmiss]
        · simp only [List.map_cons, List.map_nil]
          rw [lastAt_cons_hit key k r S [] hk]
      have hmap2 : (newKeys key S (keysOf d ++ [k])).map
            (fun kk => (kk, lastAt key kk S [])) =
          (newKeys key S (keysOf d ++ [k])).map
            (fun kk => (kk, lastAt key kk (r :: S) [])) := by
        apply List.map_congr_left
        intro kk hkk
        have hmiss : ¬ dget r key = Option.some kk := by
          rw [hk]
          intro hc
          exact not_mem_of_mem_newKeys key S _ kk hkk
            (List.mem_append_right _ (List.mem_singleton.mpr (Option.some.inj hc).symm))
        rw [lastAt_cons_miss key kk r S [] hmiss]
      rw [hmap1, hmap2, List.append_assoc]
      rfl
    · have hkmem : k ∈ keysOf d := mget_mem_keys d k r0 hmg
      have hd1keys : keysOf (msetKey d k r) = keysOf d := keysOf_msetKey_mem d k r0 r hd hmg
      have hd1nd : (keysOf (msetKey d k r)).Nodup := nodup_keys_msetKey d k r hd
      rw [ih (msetKey d k r) hAS hd1nd, hd1keys]
      have hnew : newKeys key (r :: S) (keysOf d) = newKeys key S (keysOf d) := by
        simp only [newKeys, hk]
        rw [if_pos hkmem]
      rw [hnew]
      have hmap1 : (msetKey d k r).map (fun e => (e.1, lastAt key e.1 S e.2)) =
          d.map (fun e => (e.1, lastAt key e.1 (r :: S) e.2)) := by
        rw [msetKey_map d k r0 r hd hmg, List.map_map]
        apply List.map_congr_left
        intro e he
        by_cases hek : e.1 = k
        · simp only [Function.comp, hek, if_true, eq_self_iff_true]
          rw [lastAt_cons_hit key k r S e.2 hk]
        · simp only [Function.comp, if_neg hek]
          have hmiss : ¬ dget r key = Option.some e.1 := by
            rw [hk]
            intro hc
            exact hek (Option.some.inj hc).symm
          rw [lastAt_cons_miss key e.1 r S e.2 hmiss]
      have hmap2 : (newKeys key S (keysOf d)).map (fun kk => (kk, lastAt key kk S [])) =
          (newKeys key S (keysOf d)).map (fun kk => (kk, lastAt key kk (r :: S) [])) := by
        apply List.map_congr_left
        intro kk hkk
        have hmiss : ¬ dget r key = Option.some kk := by
          rw [hk]
          intro hc
          exact not_mem_of_mem_newKeys key S _ kk hkk ((Option.some.inj hc) ▸ hkmem)
        rw [lastAt_cons_miss key kk r S [] hmiss]
      rw [hmap1, hmap2]

theorem foldE_phase2_closed (key : String) (B : List Record) :
    ∀ d : MDict, (∀ b ∈ B, ∃ k, dget b key = Option.some k ∧ hashable k = true) →
    (keysOf d).Nodup →
    foldE (insertPhase2 key) d B = Except.ok (
      d.map (fun e => (e.1, updChain e.2 (recordsAt key e.1 B))) ++
      (newKeys key B (keysOf d)).map (fun k => (k, chainNew (recordsAt key k B)))) := by
  induction B with
  | nil =>
    intro d _ _
    have h1 : d.map (fun e => (e.1, updChain e.2 (recordsAt key e.1 []))) = d := by
      conv_rhs => rw [← List.map_id d]
      exact List.map_congr_left (fun e _ => rfl)
    simp only [newKeys, List.map_nil, List.append_nil, h1]
    rfl
  | cons b S ih =>
    intro d hB hd
    obtain ⟨k, hk, hh⟩ := hB b (List.mem_cons_self b S)
    have hBS : ∀ x ∈ S, ∃ k2, dget x key = Option.some k2 ∧ hashable k2 = true :=
      fun x hx => hB x (List.mem_cons_of_mem b hx)
    rcases hmg : mget d k with _ | r0
    · have hknot : k ∉ keysOf d := (mget_eq_none_iff d k).mp hmg
      have hfold : foldE (insertPhase2 key) d (b :: S) =
          foldE (insertPhase2 key) (msetKey d k b) S := by
        simp [foldE, insertPhase2, hk, hh, hmg]
      rw [hfold, msetKey_append d k b hknot]
      have hkeys1 : keysOf (d ++ [(k, b)]) = keysOf d ++ [k] := by
        unfold keysOf
        rw [List.map_append]
        rfl
      have hnd1 : (keysOf (d ++ [(k, b)])).Nodup := by
        rw [hkeys1, List.nodup_append]
        refine ⟨hd, List.nodup_singleton k, ?_⟩
        intro x hx hxk
        rw [List.mem_singleton] at hxk
        exact hknot (hxk ▸ hx)
      rw [ih (d ++ [(k, b)]) hBS hnd1, hkeys1]
      have hnew : newKeys key (b :: S) (keysOf d) = k :: newKeys key S (keysOf d ++ [k]) := by
        simp only [newKeys, hk]
        rw [if_neg hknot]
      rw [hnew]
      have hmap1 : (d ++ [(k, b)]).map (fun e => (e.1, updChain e.2 (recordsAt key e.1 S))) =
          d.map (fun e => (e.1, updChain e.2 (recordsAt key e.1 (b :: S)))) ++
            [(k, chainNew (recordsAt key k (b :: S)))] := by
        rw [List.map_append]
        congr 1
        · apply List.map_congr_left
          intro e he
          have hmiss : ¬ dget b key = Option.some e.1 := by
            rw [hk]
            intro hc
            exact hknot ((Option.some.inj hc) ▸ List.mem_map_of_mem Prod.fst he)
          rw [recordsAt_cons_miss key e.1 b S hmiss]
        · simp only [List.map_cons, List.map_nil]
          rw [recordsAt_cons_hit key k b S hk]
          rfl
      have hmap2 : (newKeys key S (keysOf d ++ [k])).map
            (fun kk => (kk, chainNew (recordsAt key kk S))) =
          (newKeys key S (keysOf d ++ [k])).map
            (fun kk => (kk, chainNew (recordsAt key kk (b :: S)))) := by
        apply List.map_congr_left
        intro kk hkk
        have hmiss : ¬ dget b key = Option.some kk := by
          rw [hk]
          intro hc
          exact not_mem_of_mem_newKeys key S _ kk hkk
            (List.mem_append_right _ (List.mem_singleton.mpr (Option.some.inj hc).symm))
        rw [recordsAt_cons_miss key kk b S hmiss]
      rw [hmap1, hmap2, List.append_assoc]
      rfl
    · have hkmem : k ∈ keysOf d := mget_mem_keys d k r0 hmg
      have hfold : foldE (insertPhase2 key) d (b :: S) =
          foldE (insertPhase2 key) (msetKey d k (dupdate r0 b)) S := by
        simp [foldE, insertPhase2, hk, hh, hmg]
      rw [hfold]
      have hd1keys : keysOf (msetKey d k (dupdate r0 b)) = keysOf d :=
        keysOf_msetKey_mem d k r0 (dupdate r0 b) hd hmg
      have hd1nd : (keysOf (msetKey d k (dupdate r0 b))).Nodup :=
        nodup_keys_msetKey d k (dupdate r0 b) hd
      rw [ih (msetKey d k (dupdate r0 b)) hBS hd1nd, hd1keys]
      have hnew : newKeys key (b :: S) (keysOf d) = newKeys key S (keysOf d) := by
        simp only [newKeys, hk]
        rw [if_pos hkmem]
      rw [hnew]
      have hmap1 : (msetKey d k (dupdate r0 b)).map
            (fun e => (e.1, updChain e.2 (recordsAt key e.1 S))) =
          d.map (fun e => (e.1, updChain e.2 (recordsAt key e.1 (b :: S)))) := by
        rw [msetKey_map d k r0 (dupdate r0 b) hd hmg, List.map_map]
        apply List.map_congr_left
        intro e he
        by_cases hek : e.1 = k
        · have her : e.2 = r0 := by
            have hm2 : mget d e.1 = Option.some e.2 :=
              mget_of_mem_nodup d e.1 e.2 hd (by rw [← Prod.mk.eta (p := e)] at he; exact he)
            rw [hek, hmg] at hm2
            exact (Option.some.inj hm2).symm
          simp only [Function.comp, hek, if_true, eq_self_iff_true]
          rw [recordsAt_cons_hit key k b S hk, her]
          rfl
        · simp only [Function.comp, if_neg hek]
          have hmiss : ¬ dget b key = Option.some e.1 := by
            rw [hk]
            intro hc
            exact hek (Option.some.inj hc).symm
          rw [recordsAt_cons_miss key e.1 b S hmiss]
      have hmap2 : (newKeys key S (keysOf d)).map
            (fun kk => (kk, chainNew (recordsAt key kk S))) =
          (newKeys key S (keysOf d)).map
            (fun kk => (kk, chainNew (recordsAt key kk (b :: S)))) := by
        apply List.map_congr_left
        intro kk hkk
        have hmiss : ¬ dget b key = Option.some kk := by
          rw [hk]
          intro hc
          exact not_mem_of_mem_newKeys key S _ kk hkk ((Option.some.inj hc) ▸ hkmem)
        rw [recordsAt_cons_miss key kk b S hmiss]
      rw [hmap1, hmap2]

theorem foldE_phase1_values (key : String) (d : MDict) :
    ∀ acc : MDict,
    (∀ e ∈ d, dget e.2 key = Option.some e.1 ∧ hashable e.1 = true) →
    (keysOf acc ++ keysOf d).Nodup →
    foldE (insertPhase1 key) acc (d.map Prod.snd) = Except.ok (acc ++ d) := by
  induction d with
  | nil =>
    intro acc _ _
    simp [foldE]
  | cons e t ih =>
    intro acc hprop hnd
    obtain ⟨k0, r0⟩ := e
    obtain ⟨hk0, hh0⟩ := hprop (k0, r0) (List.mem_cons_self _ _)
    have hstep : foldE (insertPhase1 key) acc (((k0, r0) :: t).map Prod.snd) =
        foldE (insertPhase1 key) (msetKey acc k0 r0) (t.map Prod.snd) := by
      simp [foldE, insertPhase1, hk0, hh0]
    rw [keysOf_cons] at hnd
    have hnotin : k0 ∉ keysOf acc := by
      intro hmem
      exact (List.nodup_append.mp hnd).2.2 hmem (List.mem_cons_self k0 (keysOf t))
    rw [hstep, msetKey_append acc k0 r0 hnotin]
    have hnd2 : (keysOf (acc ++ [(k0, r0)]) ++ keysOf t).Nodup := by
      have : keysOf (acc ++ [(k0, r0)]) = keysOf acc ++ [k0] := by
        unfold keysOf
        rw [List.map_append]
        rfl
      rw [this, List.append_assoc]
      exact hnd
    rw [ih (acc ++ [(k0, r0)]) (fun x hx => hprop x (List.mem_cons_of_mem _ hx)) hnd2,
      List.append_assoc]
    rfl

/-! Membership and length facts about the key value list. -/

theorem keyvals_cons_some (key : String) (b : Record) (S : List Record) (k : Val)
    (h : dget b key = Option.some k) : keyvals key (b :: S) = k :: keyvals key S := by
  simp [keyvals, List.filterMap_cons, h]

theorem keyvals_cons_none (key : String) (b : Record) (S : List Record)
    (h : dget b key = Option.none) : keyvals key (b :: S) = keyvals key S := by
  simp [keyvals, List.filterMap_cons, h]

theorem mem_keyvals (key : String) (B : List Record) (k : Val) :
    k ∈ keyvals key B ↔ ∃ b ∈ B, dget b key = Option.some k := by
  unfold keyvals
  rw [List.mem_filterMap]

theorem length_keyvals (key : String) (A : List Record)
    (h : ∀ r ∈ A, (dget r key).isSome = true) : (keyvals key A).length = A.length := by
  induction A with
  | nil => rfl
  | cons r S ih =>
    rcases hk : dget r key with _ | k
    · have := h r (List.mem_cons_self r S)
      rw [hk] at this
      exact absurd this (by simp)
    · rw [keyvals_cons_some key r S k hk]
      simp only [List.length_cons]
      rw [ih (fun x hx => h x (List.mem_cons_of_mem r hx))]

theorem mem_keyvals_of_mem_newKeys (key : String) (B : List Record) :
    ∀ ks k, k ∈ newKeys key B ks → k ∈ keyvals key B := by
  induction B with
  | nil => intro ks k h; exact absurd h (List.not_mem_nil k)
  | cons b S ih =>
    intro ks k h
    rcases hb : dget b key with _ | k0
    · simp only [newKeys, hb] at h
      rw [keyvals_cons_none key b S hb]
      exact ih ks k h
    · simp only [newKeys, hb] at h
      rw [keyvals_cons_some key b S k0 hb]
      by_cases hm : k0 ∈ ks
      · rw [if_pos hm] at h
        exact List.mem_cons_of_mem k0 (ih ks k h)
      · rw [if_neg hm] at h
        rcases List.mem_cons.mp h with h1 | h1
        · exact h1 ▸ List.mem_cons_self k0 _
        · exact List.mem_cons_of_mem k0 (ih (ks ++ [k0]) k h1)

theorem newKeys_filter (key : String) (B : List Record) (hn : (keyvals key B).Nodup) :
    ∀ ks, newKeys key B ks = (keyvals key B).filter (fun k => decide (k ∉ ks)) := by
  induction B with
  | nil => intro ks; rfl
  | cons b S ih =>
    intro ks
    rcases hb : dget b key with _ | k0
    · simp only [newKeys, hb]
      rw [keyvals_cons_none key b S hb] at hn ⊢
      exact ih hn ks
    · rw [keyvals_cons_some key b S k0 hb] at hn ⊢
      have hk0S : k0 ∉ keyvals key S := (List.nodup_cons.mp hn).1
      have hnS : (keyvals key S).Nodup := (List.nodup_cons.mp hn).2
      simp only [newKeys, hb]
      by_cases hm : k0 ∈ ks
      · rw [if_pos hm, List.filter_cons]
        rw [ih hnS ks]
        simp [hm]
      · rw [if_neg hm, List.filter_cons]
        have hfilter : (keyvals key S).filter (fun k => decide (k ∉ ks ++ [k0])) =
            (keyvals key S).filter (fun k => decide (k ∉ ks)) := by
          apply List.filter_congr
          intro x hx
          have hxk : x ≠ k0 := fun he => hk0S (he ▸ hx)
          simp [List.mem_append, hxk]
        rw [ih hnS (ks ++ [k0]), hfilter]
        simp [hm]

theorem newKeys_nil_full (key : String) (A : List Record) (hn : (keyvals key A).Nodup) :
    newKeys key A [] = keyvals key A := by
  rw [newKeys_filter key A hn []]
  apply List.filter_eq_self.mpr
  intro a _
  simp

theorem recordsAt_single (key : String) (B : List Record) (b : Record) (k : Val)
    (hn : (keyvals key B).Nodup) (hb : b ∈ B) (hk : dget b key = Option.some k) :
    recordsAt key k B = [b] := by
  induction B with
  | nil => exact absurd hb (List.not_mem_nil b)
  | cons b0 S ih =>
    rcases List.mem_cons.mp hb with h1 | h1
    · subst h1
      rw [recordsAt_cons_hit key k b S hk]
      rw [keyvals_cons_some key b S k hk] at hn
      have hkS : k ∉ keyvals key S := (List.nodup_cons.mp hn).1
      rw [recordsAt_eq_nil key k S]
      intro x hx hc
      exact hkS ((mem_keyvals key S k).mpr ⟨x, hx, hc⟩)
    · rcases hb0 : dget b0 key with _ | k0
      · rw [recordsAt_cons_miss key k b0 S (by rw [hb0]; intro hc; exact Option.noConfusion hc)]
        rw [keyvals_cons_none key b0 S hb0] at hn
        exact ih hn h1
      · rw [keyvals_cons_some key b0 S k0 hb0] at hn
        have hk0S : k0 ∉ keyvals key S := (List.nodup_cons.mp hn).1
        have hne : ¬ dget b0 key = Option.some k := by
          rw [hb0]
          intro hc
          have : k0 = k := Option.some.inj hc
          subst this
          exact hk0S ((mem_keyvals key S k0).mpr ⟨b, h1, hk⟩)
        rw [recordsAt_cons_miss key k b0 S hne]
        exact ih (List.nodup_cons.mp hn).2 h1

theorem chainGet_of_all (f : String) (k : Val) (L : List Record)
    (h : ∀ b ∈ L, dget b f = Option.some k) :
    chainGet f L = Option.none ∨ chainGet f L = Option.some k := by
  induction L with
  | nil => exact Or.inl rfl
  | cons b t ih =>
    rw [chainGet_cons]
    rcases ih (fun x hx => h x (List.mem_cons_of_mem b hx)) with h1 | h1 <;> rw [h1]
    · rw [h b (List.mem_cons_self b t)]
      exact Or.inr rfl
    · exact Or.inr rfl

theorem RecordWF_chainNew (L : List Record) (hL : ∀ b ∈ L, RecordWF b) :
    RecordWF (chainNew L) := by
  cases L with
  | nil => exact List.nodup_nil
  | cons b rest =>
    exact RecordWF_updChain b rest (hL b (List.mem_cons_self b rest))
      (fun x hx => hL x (List.mem_cons_of_mem b hx))

theorem dget_key_updChain (key : String) (k : Val) (a : Record) (B : List Record)
    (hWB : ∀ b ∈ B, RecordWF b) (ha : dget a key = Option.some k) :
    dget (updChain a (recordsAt key k B)) key = Option.some k := by
  have hW : ∀ b ∈ recordsAt key k B, RecordWF b :=
    fun b hb => hWB b ((mem_recordsAt key k B b).mp hb).1
  rw [dget_updChain a _ hW key]
  rcases chainGet_of_all key k (recordsAt key k B)
      (fun b hb => ((mem_recordsAt key k B b).mp hb).2) with h1 | h1 <;> rw [h1]
  · rw [ha]
    rfl
  · rfl

theorem dget_key_chainNew (key : String) (k : Val) (B : List Record)
    (hWB : ∀ b ∈ B, RecordWF b) (hne : ∃ b ∈ B, dget b key = Option.some k) :
    dget (chainNew (recordsAt key k B)) key = Option.some k := by
  rcases hL : recordsAt key k B with _ | ⟨b0, rest⟩
  · obtain ⟨b, hb, hk⟩ := hne
    have hmem : b ∈ recordsAt key k B := (mem_recordsAt key k B b).mpr ⟨hb, hk⟩
    rw [hL] at hmem
    exact absurd hmem (List.not_mem_nil b)
  · have hsub : ∀ x ∈ b0 :: rest, x ∈ B ∧ dget x key = Option.some k := by
      intro x hx
      exact (mem_recordsAt key k B x).mp (hL ▸ hx)
    have hWrest : ∀ x ∈ rest, RecordWF x :=
      fun x hx => hWB x (hsub x (List.mem_cons_of_mem b0 hx)).1
    show dget (updChain b0 rest) key = Option.some k
    rw [dget_updChain b0 rest hWrest key]
    rcases chainGet_of_all key k rest
        (fun x hx => (hsub x (List.mem_cons_of_mem b0 hx)).2) with h1 | h1 <;> rw [h1]
    · rw [(hsub b0 (List.mem_cons_self b0 rest)).2]
      rfl
    · rfl

theorem updChain_updChain_absorb (a : Record) (L : List Record) (ha : RecordWF a)
    (hL : ∀ b ∈ L, RecordWF b) : updChain (updChain a L) L = updChain a L := by
  apply updChain_absorb _ L (RecordWF_updChain a L ha hL) hL
  · intro b hb f hf
    exact mem_fieldsOf_updChain a L hL f (Or.inr ⟨b, hb, hf⟩)
  · intro f v hcg
    rw [dget_updChain a L hL f, hcg]
    rfl

theorem chainNew_updChain_absorb (L : List Record) (hL : ∀ b ∈ L, RecordWF b) :
    updChain (chainNew L) L = chainNew L := by
  cases L with
  | nil => rfl
  | cons b0 rest =>
    have hb0 : RecordWF b0 := hL b0 (List.mem_cons_self b0 rest)
    have hrest : ∀ x ∈ rest, RecordWF x := fun x hx => hL x (List.mem_cons_of_mem b0 hx)
    show updChain (updChain b0 rest) (b0 :: rest) = updChain b0 rest
    apply updChain_absorb _ _ (RecordWF_updChain b0 rest hb0 hrest) hL
    · intro b hb f hf
      rcases List.mem_cons.mp hb with h1 | h1
      · exact mem_fieldsOf_updChain b0 rest hrest f (Or.inl (h1 ▸ hf))
      · exact mem_fieldsOf_updChain b0 rest hrest f (Or.inr ⟨b, h1, hf⟩)
    · intro f v hcg
      rw [chainGet_cons] at hcg
      rw [dget_updChain b0 rest hrest f]
      exact hcg

theorem keysOf_map_pair (l : List Val) (f : Val → Record) :
    keysOf (l.map (fun k => (k, f k))) = l := by
  unfold keysOf
  rw [List.map_map]
  conv_rhs => rw [← List.map_id l]
  exact List.map_congr_left (fun k _ => rfl)

theorem merge_closed (key : String) (A B : List Record)
    (hA : ∀ r ∈ A, ∃ k, dget r key = Option.some k ∧ hashable k = true)
    (hB : ∀ b ∈ B, ∃ k, dget b key = Option.some k ∧ hashable k = true) :
    merge_lists_by_key A B key = Except.ok (
      (newKeys key A []).map
        (fun k => updChain (lastAt key k A []) (recordsAt key k B)) ++
      (newKeys key B (newKeys key A [])).map
        (fun k => chainNew (recordsAt key k B))) := by
  have h1 := foldE_phase1_closed key A [] hA List.nodup_nil
  simp only [List.map_nil, List.nil_append] at h1
  have hkeys : keysOf ((newKeys key A (keysOf ([] : MDict))).map
      (fun k => (k, lastAt key k A []))) = newKeys key A [] :=
    keysOf_map_pair (newKeys key A []) (fun k => lastAt key k A [])
  have hnd : (keysOf ((newKeys key A (keysOf ([] : MDict))).map
      (fun k => (k, lastAt key k A [])))).Nodup := by
    rw [hkeys]
    exact newKeys_nodup key A []
  have h2 := foldE_phase2_closed key B _ hB hnd
  have hm : merge_lists_by_key A B key =
      (match foldE (insertPhase2 key)
          ((newKeys key A (keysOf ([] : MDict))).map (fun k => (k, lastAt key k A []))) B with
        | Except.error e => Except.error e
        | Except.ok d2 => Except.ok (d2.map Prod.snd)) := by
    unfold merge_lists_by_key
    rw [h1]
  rw [hm, h2, hkeys]
  show Except.ok _ = Except.ok _
  rw [List.map_append, List.map_map, List.map_map, List.map_map]
  rfl

theorem length_filter_split (l : List Val) (p : Val → Bool) :
    l.length = (l.filter p).length + (l.filter (fun x => ! p x)).length := by
  induction l with
  | nil => rfl
  | cons x t ih =>
    rcases hx : p x with _ | _
    · simp [List.filter_cons, hx]
      omega
    · simp [List.filter_cons, hx]
      omega

theorem lastAt_single (key : String) : ∀ (A : List Record) (a : Record) (k : Val),
    (keyvals key A).Nodup → a ∈ A → dget a key = Option.some k →
    ∀ dflt : Record, lastAt key k A dflt = a
  | [], a, _, _, ha, _, _ => absurd ha (List.not_mem_nil a)
  | a0 :: S, a, k, hn, ha, hk, dflt => by
    rcases List.mem_cons.mp ha with h1 | h1
    · subst h1
      rw [lastAt_cons_hit key k a S dflt hk]
      rw [keyvals_cons_some key a S k hk] at hn
      have hkS : k ∉ keyvals key S := (List.nodup_cons.mp hn).1
      apply lastAt_of_none
      intro x hx hc
      exact hkS ((mem_keyvals key S k).mpr ⟨x, hx, hc⟩)
    · rcases ha0 : dget a0 key with _ | k0
      · rw [lastAt_cons_miss key k a0 S dflt (by rw [ha0]; intro hc; exact Option.noConfusion hc)]
        rw [keyvals_cons_none key a0 S ha0] at hn
        exact lastAt_single key S a k hn h1 hk dflt
      · rw [keyvals_cons_some key a0 S k0 ha0] at hn
        have hk0S : k0 ∉ keyvals key S := (List.nodup_cons.mp hn).1
        have hne : ¬ dget a0 key = Option.some k := by
          rw [ha0]
          intro hc
          have : k0 = k := Option.some.inj hc
          subst this
          exact hk0S ((mem_keyvals key S k0).mpr ⟨a, h1, hk⟩)
        rw [lastAt_cons_miss key k a0 S dflt hne]
        exact lastAt_single key S a k (List.nodup_cons.mp hn).2 h1 hk dflt

theorem merge_overlay_spec (key : String) (A B : List Record)
    (hWB : ∀ b ∈ B, RecordWF b)
    (hA : ∀ r ∈ A, ∃ k, dget r key = Option.some k ∧ hashable k = true)
    (hB : ∀ b ∈ B, ∃ k, dget b key = Option.some k ∧ hashable k = true)
    (hnA : (keyvals key A).Nodup) (hnB : (keyvals key B).Nodup) :
    ∃ M, merge_lists_by_key A B key = Except.ok M ∧
      ∀ b ∈ B, ∀ k, dget b key = Option.some k →
        (∀ a ∈ A, dget a key = Option.some k →
          ∃ m ∈ M, dget m key = Option.some k ∧
            (∀ f v, dget b f = Option.some v → dget m f = Option.some v) ∧
            (∀ f, dget b f = Option.none → dget m f = dget a f)) ∧
        (k ∉ keyvals key A → b ∈ M) := by
  have hM := merge_closed key A B hA hB
  rw [newKeys_nil_full key A hnA, newKeys_filter key B hnB (keyvals key A)] at hM
  refine ⟨_, hM, ?_⟩
  intro b hbB k hbk
  constructor
  · intro a haA hak
    have hWb : RecordWF b := hWB b hbB
    have hk_in_kA : k ∈ keyvals key A := (mem_keyvals key A k).mpr ⟨a, haA, hak⟩
    have hmem0 : updChain (lastAt key k A []) (recordsAt key k B) ∈
        (keyvals key A).map (fun k => updChain (lastAt key k A []) (recordsAt key k B)) :=
      List.mem_map_of_mem _ hk_in_kA
    rw [lastAt_single key A a k hnA haA hak [],
      recordsAt_single key B b k hnB hbB hbk] at hmem0
    have hud : updChain a [b] = dupdate a b := rfl
    refine ⟨updChain a [b], List.mem_append_left _ hmem0, ?_, ?_, ?_⟩
    · rw [hud, dget_dupdate a b hWb key, hbk]
      rfl
    · intro f v hf
      rw [hud, dget_dupdate a b hWb f, hf]
      rfl
    · intro f hf
      rw [hud, dget_dupdate a b hWb f, hf]
      rfl
  · intro hknot
    have hk_in_kB : k ∈ keyvals key B := (mem_keyvals key B k).mpr ⟨b, hbB, hbk⟩
    have hk_filter : k ∈ (keyvals key B).filter (fun k => decide (k ∉ keyvals key A)) :=
      List.mem_filter.mpr ⟨hk_in_kB, by simp [hknot]⟩
    have hmem0 : chainNew (recordsAt key k B) ∈
        ((keyvals key B).filter (fun k => decide (k ∉ keyvals key A))).map
          (fun k => chainNew (recordsAt key k B)) :=
      List.mem_map_of_mem _ hk_filter
    rw [recordsAt_single key B b k hnB hbB hbk] at hmem0
    exact List.mem_append_right _ hmem0

theorem merge_shape_spec (key : String) (A B : List Record)
    (hWA : ∀ r ∈ A, RecordWF r) (hWB : ∀ b ∈ B, RecordWF b)
    (hA : ∀ r ∈ A, ∃ k, dget r key = Option.some k ∧ hashable k = true)
    (hB : ∀ b ∈ B, ∃ k, dget b key = Option.some k ∧ hashable k = true)
    (hnA : (keyvals key A).Nodup) (hnB : (keyvals key B).Nodup) :
    ∃ M, merge_lists_by_key A B key = Except.ok M ∧
      M.map (fun m => dget m key) =
        (keyvals key A ++
          (keyvals key B).filter (fun k => decide (k ∉ keyvals key A))).map Option.some ∧
      A.length ≤ M.length ∧ B.length ≤ M.length ∧ M.length ≤ A.length + B.length ∧
      (M.map (fun m => dget m key)).Nodup ∧
      (∀ k, Option.some k ∈ M.map (fun m => dget m key) ↔
        (k ∈ keyvals key A ∨ k ∈ keyvals key B)) ∧
      (∀ r ∈ A ++ B, ∀ f, (dget r f).isSome = true →
        ∃ m ∈ M, dget m key = dget r key ∧ (dget m f).isSome = true) := by
  have hM := merge_closed key A B hA hB
  rw [newKeys_nil_full key A hnA, newKeys_filter key B hnB (keyvals key A)] at hM
  have hWrec : ∀ k : Val, ∀ x ∈ recordsAt key k B, RecordWF x :=
    fun k x hx => hWB x ((mem_recordsAt key k B x).mp hx).1
  have hkeymap :
      (((keyvals key A).map (fun k => updChain (lastAt key k A []) (recordsAt key k B)) ++
        ((keyvals key B).filter (fun k => decide (k ∉ keyvals key A))).map
          (fun k => chainNew (recordsAt key k B))).map (fun m => dget m key)) =
      ((keyvals key A) ++
        (keyvals key B).filter (fun k => decide (k ∉ keyvals key A))).map Option.some := by
    rw [List.map_append, List.map_map, List.map_map, List.map_append]
    congr 1
    · apply List.map_congr_left
      intro k hk
      obtain ⟨a, haA, hak⟩ := (mem_keyvals key A k).mp hk
      have hlast := lastAt_mem key k A [] ⟨a, haA, hak⟩
      exact dget_key_updChain key k _ B hWB hlast.2
    · apply List.map_congr_left
      intro k hk
      have hkB2 : k ∈ keyvals key B := List.mem_of_mem_filter hk
      obtain ⟨b, hbB, hbk⟩ := (mem_keyvals key B k).mp hkB2
      exact dget_key_chainNew key k B hWB ⟨b, hbB, hbk⟩
  have hlenA : (keyvals key A).length = A.length := by
    apply length_keyvals
    intro r hr
    obtain ⟨k, hk, _⟩ := hA r hr
    rw [hk]
    rfl
  have hlenB : (keyvals key B).length = B.length := by
    apply length_keyvals
    intro r hr
    obtain ⟨k, hk, _⟩ := hB r hr
    rw [hk]
    rfl
  have hdisj : ∀ x ∈ keyvals key A,
      x ∉ (keyvals key B).filter (fun k => decide (k ∉ keyvals key A)) := by
    intro x hx hxf
    have := (List.mem_filter.mp hxf).2
    simp at this
    exact this hx
  refine ⟨_, hM, hkeymap, ?_, ?_, ?_, ?_, ?_, ?_⟩
  · rw [List.length_append, List.length_map, List.length_map, hlenA]
    exact Nat.le_add_right A.length _
  · rw [List.length_append, List.length_map, List.length_map, hlenA]
    have hsplit := length_filter_split (keyvals key B) (fun k => decide (k ∉ keyvals key A))
    have hcompl : ((keyvals key B).filter
        (fun x => ! decide (x ∉ keyvals key A))).length ≤ A.length := by
      rw [← hlenA]
      apply List.Subperm.length_le
      apply List.Nodup.subperm (List.Nodup.filter _ hnB)
      intro x hx
      have := (List.mem_filter.mp hx).2
      simpa using this
    omega
  · rw [List.length_append, List.length_map, List.length_map, hlenA]
    have := List.length_filter_le (fun k => decide (k ∉ keyvals key A)) (keyvals key B)
    omega
  · rw [hkeymap]
    apply List.Nodup.map (fun x y h => Option.some.inj h)
    rw [List.nodup_append]
    exact ⟨hnA, List.Nodup.filter _ hnB, hdisj⟩
  · intro k
    rw [hkeymap]
    constructor
    · intro hk
      obtain ⟨x, hx, hxk⟩ := List.mem_map.mp hk
      have hxk2 : x = k := Option.some.inj hxk
      subst hxk2
      rcases List.mem_append.mp hx with h1 | h1
      · exact Or.inl h1
      · exact Or.inr (List.mem_of_mem_filter h1)
    · intro hk
      apply List.mem_map_of_mem Option.some
      rw [List.mem_append]
      by_cases hmem : k ∈ keyvals key A
      · exact Or.inl hmem
      · rcases hk with h1 | h1
        · exact absurd h1 hmem
        · exact Or.inr (List.mem_filter.mpr ⟨h1, by simp [hmem]⟩)
  · intro r hr f hf
    rcases List.mem_append.mp hr with hrA | hrB
    · obtain ⟨k, hk, _⟩ := hA r hrA
      have hk_in : k ∈ keyvals key A := (mem_keyvals key A k).mpr ⟨r, hrA, hk⟩
      have hlast : lastAt key k A [] = r := lastAt_single key A r k hnA hrA hk []
      have hmm : updChain r (recordsAt key k B) ∈
          (keyvals key A).map (fun k => updChain (lastAt key k A []) (recordsAt key k B)) :=
        List.mem_map.mpr ⟨k, hk_in, by simp only [hlast]⟩
      refine ⟨updChain r (recordsAt key k B), List.mem_append_left _ hmm, ?_, ?_⟩
      · rw [hk]
        exact dget_key_updChain key k r B hWB hk
      · rw [dget_isSome_iff]
        exact mem_fieldsOf_updChain r _ (hWrec k) f (Or.inl ((dget_isSome_iff r f).mp hf))
    · obtain ⟨k, hk, _⟩ := hB r hrB
      by_cases hmem : k ∈ keyvals key A
      · obtain ⟨a, haA, hak⟩ := (mem_keyvals key A k).mp hmem
        have hlast : lastAt key k A [] = a := lastAt_single key A a k hnA haA hak []
        have hsingle : recordsAt key k B = [r] := recordsAt_single key B r k hnB hrB hk
        have hmm : updChain a [r] ∈
            (keyvals key A).map (fun k => updChain (lastAt key k A []) (recordsAt key k B)) :=
          List.mem_map.mpr ⟨k, hmem, by simp only [hlast, hsingle]⟩
        have hud : updChain a [r] = dupdate a r := rfl
        have hWr : RecordWF r := hWB r hrB
        refine ⟨updChain a [r], List.mem_append_left _ hmm, ?_, ?_⟩
        · rw [hud, dget_dupdate a r hWr key, hk]
          rfl
        · rw [hud, dget_dupdate a r hWr f]
          obtain ⟨v, hv⟩ := Option.isSome_iff_exists.mp hf
          rw [hv]
          rfl
      · have hk_filter : k ∈ (keyvals key B).filter (fun k => decide (k ∉ keyvals key A)) :=
          List.mem_filter.mpr ⟨(mem_keyvals key B k).mpr ⟨r, hrB, hk⟩, by simp [hmem]⟩
        have hsingle : recordsAt key k B = [r] := recordsAt_single key B r k hnB hrB hk
        have hmm : r ∈ ((keyvals key B).filter
            (fun k => decide (k ∉ keyvals key A))).map (fun k => chainNew (recordsAt key k B)) :=
          List.mem_map.mpr ⟨k, hk_filter, by simp only [hsingle]; rfl⟩
        exact ⟨r, List.mem_append_right _ hmm, rfl, hf⟩

theorem merge_again (key : String) (A B M : List Record)
    (hWA : ∀ r ∈ A, RecordWF r) (hWB : ∀ b ∈ B, RecordWF b)
    (hA : ∀ r ∈ A, ∃ k, dget r key = Option.some k ∧ hashable k = true)
    (hB : ∀ b ∈ B, ∃ k, dget b key = Option.some k ∧ hashable k = true)
    (hM : merge_lists_by_key A B key = Except.ok M) :
    merge_lists_by_key M B key = Except.ok M := by
  have hclosed := merge_closed key A B hA hB
  rw [hM] at hclosed
  have hMeq := Except.ok.inj hclosed
  set d2 : MDict :=
    (newKeys key A []).map (fun k => (k, updChain (lastAt key k A []) (recordsAt key k B))) ++
    (newKeys key B (newKeys key A [])).map (fun k => (k, chainNew (recordsAt key k B)))
    with hd2
  have hsnd : d2.map Prod.snd = M := by
    rw [hd2, hMeq, List.map_append, List.map_map, List.map_map]
    rfl
  have happ : ∀ x y : MDict, keysOf (x ++ y) = keysOf x ++ keysOf y := by
    intro x y
    unfold keysOf
    exact List.map_append Prod.fst x y
  have hkeys2 : keysOf d2 = newKeys key A [] ++ newKeys key B (newKeys key A []) := by
    rw [hd2, happ, keysOf_map_pair, keysOf_map_pair]
  have hnd2 : (keysOf d2).Nodup := by
    rw [hkeys2, List.nodup_append]
    refine ⟨newKeys_nodup key A [], newKeys_nodup key B _, ?_⟩
    intro x hx hx2
    exact not_mem_of_mem_newKeys key B _ x hx2 hx
  have hprop : ∀ e ∈ d2, dget e.2 key = Option.some e.1 ∧ hashable e.1 = true := by
    intro e he
    rw [hd2] at he
    rcases List.mem_append.mp he with h1 | h1
    · obtain ⟨k, hk, hek⟩ := List.mem_map.mp h1
      subst hek
      have hkA : k ∈ keyvals key A := mem_keyvals_of_mem_newKeys key A [] k hk
      obtain ⟨a, haA, hak⟩ := (mem_keyvals key A k).mp hkA
      have hlast := lastAt_mem key k A [] ⟨a, haA, hak⟩
      constructor
      · exact dget_key_updChain key k _ B hWB hlast.2
      · obtain ⟨k2, hk2, hh2⟩ := hA _ hlast.1
        rw [hlast.2] at hk2
        rw [Option.some.inj hk2]
        exact hh2
    · obtain ⟨k, hk, hek⟩ := List.mem_map.mp h1
      subst hek
      have hkB : k ∈ keyvals key B := mem_keyvals_of_mem_newKeys key B _ k hk
      obtain ⟨b, hbB, hbk⟩ := (mem_keyvals key B k).mp hkB
      constructor
      · exact dget_key_chainNew key k B hWB ⟨b, hbB, hbk⟩
      · obtain ⟨k2, hk2, hh2⟩ := hB b hbB
        rw [hbk] at hk2
        rw [Option.some.inj hk2]
        exact hh2
  have hWrec : ∀ kk : Val, ∀ x ∈ recordsAt key kk B, RecordWF x :=
    fun kk x hx => hWB x ((mem_recordsAt key kk B x).mp hx).1
  have habs : ∀ e ∈ d2, updChain e.2 (recordsAt key e.1 B) = e.2 := by
    intro e he
    rw [hd2] at he
    rcases List.mem_append.mp he with h1 | h1
    · obtain ⟨k, hk, hek⟩ := List.mem_map.mp h1
      subst hek
      have hkA : k ∈ keyvals key A := mem_keyvals_of_mem_newKeys key A [] k hk
      obtain ⟨a, haA, hak⟩ := (mem_keyvals key A k).mp hkA
      have hlast := lastAt_mem key k A [] ⟨a, haA, hak⟩
      exact updChain_updChain_absorb _ _ (hWA _ hlast.1) (hWrec k)
    · obtain ⟨k, hk, hek⟩ := List.mem_map.mp h1
      subst hek
      exact chainNew_updChain_absorb _ (hWrec k)
  have hVnd : (keysOf ([] : MDict) ++ keysOf d2).Nodup := by simpa using hnd2
  have hV := foldE_phase1_values key d2 [] hprop hVnd
  rw [hsnd] at hV
  simp only [List.nil_append] at hV
  have hph2 := foldE_phase2_closed key B d2 hB hnd2
  have hnew0 : newKeys key B (keysOf d2) = [] := by
    apply newKeys_eq_nil
    intro b hb k hk
    rw [hkeys2]
    rcases mem_newKeys_or key B (newKeys key A []) b k hb hk with h1 | h1
    · exact List.mem_append_left _ h1
    · exact List.mem_append_right _ h1
  have hmapid : d2.map (fun e => (e.1, updChain e.2 (recordsAt key e.1 B))) = d2 := by
    conv_rhs => rw [← List.map_id d2]
    apply List.map_congr_left
    intro e he
    rw [habs e he]
    rfl
  rw [hnew0, hmapid] at hph2
  simp only [List.map_nil, List.append_nil] at hph2
  have hm : merge_lists_by_key M B key =
      (match foldE (insertPhase2 key) d2 B with
        | Except.error e => Except.error e
        | Except.ok dd => Except.ok (dd.map Prod.snd)) := by
    unfold merge_lists_by_key
    rw [hV]
  rw [hm, hph2]
  show Except.ok _ = Except.ok _
  rw [hsnd]

theorem foldE_phase1_error (key : String) (L : List Record) :
    ∀ d : MDict, (∃ x ∈ L, dget x key = Option.none) →
    (∀ r ∈ L, ∀ v, dget r key = Option.some v → hashable v = true) →
    foldE (insertPhase1 key) d L = Except.error "KeyError" := by
  induction L with
  | nil =>
    intro d hx _
    obtain ⟨x, hx0, _⟩ := hx
    exact absurd hx0 (List.not_mem_nil x)
  | cons r S ih =>
    intro d hx hhash
    rcases hr : dget r key with _ | v
    · simp [foldE, insertPhase1, hr]
    · have hh := hhash r (List.mem_cons_self r S) v hr
      have hstep : foldE (insertPhase1 key) d (r :: S) =
          foldE (insertPhase1 key) (msetKey d v r) S := by
        simp [foldE, insertPhase1, hr, hh]
      rw [hstep]
      apply ih
      · obtain ⟨x, hx0, hxk⟩ := hx
        rcases List.mem_cons.mp hx0 with h1 | h1
        · rw [h1, hr] at hxk
          exact absurd hxk (Option.noConfusion)
        · exact ⟨x, h1, hxk⟩
      · exact fun x hxS => hhash x (List.mem_cons_of_mem r hxS)

theorem foldE_phase2_error (key : String) (L : List Record) :
    ∀ d : MDict, (∃ x ∈ L, dget x key = Option.none) →
    (∀ r ∈ L, ∀ v, dget r key = Option.some v → hashable v = true) →
    foldE (insertPhase2 key) d L = Except.error "KeyError" := by
  induction L with
  | nil =>
    intro d hx _
    obtain ⟨x, hx0, _⟩ := hx
    exact absurd hx0 (List.not_mem_nil x)
  | cons r S ih =>
    intro d hx hhash
    rcases hr : dget r key with _ | v
    · simp [foldE, insertPhase2, hr]
    · have hh := hhash r (List.mem_cons_self r S) v hr
      have hrest : ∃ x ∈ S, dget x key = Option.none := by
        obtain ⟨x, hx0, hxk⟩ := hx
        rcases List.mem_cons.mp hx0 with h1 | h1
        · rw [h1, hr] at hxk
          exact absurd hxk (Option.noConfusion)
        · exact ⟨x, h1, hxk⟩
      have hhashS : ∀ x ∈ S, ∀ v, dget x key = Option.some v → hashable v = true :=
        fun x hxS => hhash x (List.mem_cons_of_mem r hxS)
      rcases hmg : mget d v with _ | old
      · have hstep : foldE (insertPhase2 key) d (r :: S) =
            foldE (insertPhase2 key) (msetKey d v r) S := by
          simp [foldE, insertPhase2, hr, hh, hmg]
        rw [hstep]
        exact ih (msetKey d v r) hrest hhashS
      · have hstep : foldE (insertPhase2 key) d (r :: S) =
            foldE (insertPhase2 key) (msetKey d v (dupdate old r)) S := by
          simp [foldE, insertPhase2, hr, hh, hmg]
        rw [hstep]
        exact ih (msetKey d v (dupdate old r)) hrest hhashS

/-- C10: when some record of either input list lacks the merge key field,
merge_lists_by_key raises the key lookup error KeyError (given that the key
values that are present are hashable, as strings are): the unkeyed record is
neither skipped nor inserted and no merged list is returned. -/
theorem C10_missing_key_raises (list1 list2 : List Record) (key : String)
    (hmiss : ∃ r ∈ list1 ++ list2, dget r key = Option.none)
    (hhash : ∀ r ∈ list1 ++ list2, ∀ v, dget r key = Option.some v → hashable v = true) :
    merge_lists_by_key list1 list2 key = Except.error "KeyError" := by
  have hhash1 : ∀ r ∈ list1, ∀ v, dget r key = Option.some v → hashable v = true :=
    fun r hr => hhash r (List.mem_append_left _ hr)
  have hhash2 : ∀ r ∈ list2, ∀ v, dget r key = Option.some v → hashable v = true :=
    fun r hr => hhash r (List.mem_append_right _ hr)
  by_cases h1 : ∃ x ∈ list1, dget x key = Option.none
  · unfold merge_lists_by_key
    rw [foldE_phase1_error key list1 [] h1 hhash1]
  · push_neg at h1
    have hA : ∀ r ∈ list1, ∃ k, dget r key = Option.some k ∧ hashable k = true := by
      intro r hr
      rcases hdg : dget r key with _ | k
      · exact absurd hdg (h1 r hr)
      · exact ⟨k, rfl, hhash1 r hr k hdg⟩
    have h2 : ∃ x ∈ list2, dget x key = Option.none := by
      obtain ⟨x, hx0, hxk⟩ := hmiss
      rcases List.mem_append.mp hx0 with hm | hm
      · exact absurd hxk (h1 x hm)
      · exact ⟨x, hm, hxk⟩
    have hph1 := foldE_phase1_closed key list1 [] hA List.nodup_nil
    simp only [List.map_nil, List.nil_append] at hph1
    have hm : merge_lists_by_key list1 list2 key =
        (match foldE (insertPhase2 key)
            ((newKeys key list1 (keysOf ([] : MDict))).map
              (fun k => (k, lastAt key k list1 []))) list2 with
          | Except.error e => Except.error e
          | Except.ok d2 => Except.ok (d2.map Prod.snd)) := by
      unfold merge_lists_by_key
      rw [hph1]
    rw [hm, foldE_phase2_error key list2 _ h2 hhash2]

/-- Witness for C10 at a concrete input: a single primary record without the
url field makes the merge fail with KeyError. -/
theorem C10_witness :
    merge_lists_by_key [[("title", Val.s "x")]] [] "url" = Except.error "KeyError" :=
  C10_missing_key_raises [[("title", Val.s "x")]] [] "url" (by decide) (by decide)

/-- C9: merging is idempotent in the secondary argument: with the key field
present (and hashable) on every record of A and B, and the records being
dicts (distinct field names), merge(merge(A,B),B) equals merge(A,B). -/
theorem C9_merge_idempotent_secondary (A B : List Record) (key : String)
    (hWA : ∀ r ∈ A, RecordWF r) (hWB : ∀ b ∈ B, RecordWF b)
    (hA : ∀ r ∈ A, ∃ k, dget r key = Option.some k ∧ hashable k = true)
    (hB : ∀ b ∈ B, ∃ k, dget b key = Option.some k ∧ hashable k = true) :
    ∃ M, merge_lists_by_key A B key = Except.ok M ∧
      merge_lists_by_key M B key = Except.ok M :=
  ⟨_, merge_closed key A B hA hB,
    merge_again key A B _ hWA hWB hA hB (merge_closed key A B hA hB)⟩

/-- Witness for C9 at a concrete input, with a shared key and a fresh key. -/
theorem C9_witness :
    merge_lists_by_key [[("url", Val.s "u"), ("t", Val.s "a")]]
      [[("url", Val.s "u"), ("t", Val.s "b")], [("url", Val.s "v")]] "url" =
      Except.ok [[("url", Val.s "u"), ("t", Val.s "b")], [("url", Val.s "v")]] ∧
    merge_lists_by_key [[("url", Val.s "u"), ("t", Val.s "b")], [("url", Val.s "v")]]
      [[("url", Val.s "u"), ("t", Val.s "b")], [("url", Val.s "v")]] "url" =
      Except.ok [[("url", Val.s "u"), ("t", Val.s "b")], [("url", Val.s "v")]] := by
  obtain ⟨M, h1, h2⟩ := C9_merge_idempotent_secondary
    [[("url", Val.s "u"), ("t", Val.s "a")]]
    [[("url", Val.s "u"), ("t", Val.s "b")], [("url", Val.s "v")]] "url"
    (by decide) (by decide) (by decide) (by decide)
  have hM0 : merge_lists_by_key [[("url", Val.s "u"), ("t", Val.s "a")]]
      [[("url", Val.s "u"), ("t", Val.s "b")], [("url", Val.s "v")]] "url" =
      Except.ok [[("url", Val.s "u"), ("t", Val.s "b")], [("url", Val.s "v")]] := rfl
  have heq : M = [[("url", Val.s "u"), ("t", Val.s "b")], [("url", Val.s "v")]] :=
    Except.ok.inj (h1.symm.trans hM0)
  subst heq
  exact ⟨h1, h2⟩

theorem runAux_spec (sources : List SourceConfig) :
    ∀ acc : List Record,
    Engine.runAux sources acc =
      (mapE (fun s => s.proc s.url) (sources.filter (fun s => s.enabled))).map
        (fun results => acc ++ results.flatten) := by
  induction sources with
  | nil =>
    intro acc
    simp [Engine.runAux, mapE, Except.map]
  | cons s rest ih =>
    intro acc
    rcases hen : s.enabled with _ | _
    · have hfilter : (s :: rest).filter (fun s => s.enabled) =
          rest.filter (fun s => s.enabled) := by
        simp [List.filter_cons, hen]
      rw [hfilter]
      have hrun : Engine.runAux (s :: rest) acc = Engine.runAux rest acc := by
        simp [Engine.runAux, hen]
      rw [hrun, ih acc]
    · have hfilter : (s :: rest).filter (fun s => s.enabled) =
          s :: rest.filter (fun s => s.enabled) := by
        simp [List.filter_cons, hen]
      rw [hfilter]
      rcases hproc : s.proc s.url with e | results
      · have hrun : Engine.runAux (s :: rest) acc = Except.error e := by
          simp [Engine.runAux, hen, hproc]
        rw [hrun]
        have hmap : mapE (fun s => s.proc s.url) (s :: rest.filter (fun s => s.enabled)) =
            Except.error e := by
          simp [mapE, hproc]
        rw [hmap]
        rfl
      · have hrun : Engine.runAux (s :: rest) acc = Engine.runAux rest (acc ++ results) := by
          simp [Engine.runAux, hen, hproc]
        rw [hrun, ih (acc ++ results)]
        rcases hrest : mapE (fun s => s.proc s.url) (rest.filter (fun s => s.enabled))
          with e | ys
        · have hmap : mapE (fun s => s.proc s.url) (s :: rest.filter (fun s => s.enabled)) =
              Except.error e := by
            simp [mapE, hproc, hrest]
          rw [hmap, hrest]
          rfl
        · have hmap : mapE (fun s => s.proc s.url) (s :: rest.filter (fun s => s.enabled)) =
              Except.ok (results :: ys) := by
            simp [mapE, hproc, hrest]
          rw [hmap, hrest]
          show Except.ok (acc ++ results ++ ys.flatten) = Except.ok (acc ++ (results :: ys).flatten)
          rw [List.flatten_cons, List.append_assoc]

/-- C7: Engine.run visits the configured entries in declaration order, skips
every disabled entry, calls process(seedUrl) on each enabled adapter, and
returns exactly the concatenation of the enabled adapters outputs in
configuration order (when an enabled adapter fails, the error propagates, as
the source does not catch it). -/
theorem C7_engine_run_concatenation (sources : List SourceConfig) :
    Engine.run sources =
      (mapE (fun s => s.proc s.url) (sources.filter (fun s => s.enabled))).map
        (fun results => results.flatten) := by
  unfold Engine.run
  rw [runAux_spec sources []]
  rcases h : mapE (fun s => s.proc s.url) (sources.filter (fun s => s.enabled)) with e | ys
  · rw [h]
    rfl
  · rw [h]
    show Except.ok ([] ++ ys.flatten) = Except.ok ys.flatten
    rw [List.nil_append]

/-- C4 behavior at a failing seed fetch (status 404): IndieWire.process
returns the empty list as the claim states, but Deadline.process and
Variety.process read the never assigned local detailed_stories and raise
UnboundLocalError, so the claim fails for them. -/
theorem C4_seed_fetch_failure :
    Deadline.process (fun _ => ⟨404, ""⟩) (fun _ => []) (fun _ => [])
      ("2026-10-12", "00:00:00") "https://deadline.com/v/film/" =
      Except.error "UnboundLocalError" ∧
    Variety.process (fun _ => ⟨404, ""⟩) (fun _ => []) (fun _ => Option.some [])
      ("2026-10-12", "00:00:00") "https://variety.com/v/film/" =
      Except.error "UnboundLocalError" ∧
    IndieWire.process (fun _ => ⟨404, ""⟩) (fun _ => []) (fun _ => [])
      ("2026-10-12", "00:00:00") "https://www.indiewire.com/c/criticism/movies/" =
      Except.ok [] :=
  ⟨rfl, rfl, rfl⟩

/-- C5 behavior of the naive date normalizers: the accepted example parses,
but an unparseable string is not recovered with an empty string pair:
extract_date_time raises ValueError (no guard at all) and parse_datetime
turns the sentinel into an AttributeError inside localize; only falsy input
yields the empty pair. -/
theorem C5_naive_parse_behavior :
    extract_date_time "March 5, 2024 2:30PM" = Except.ok ("2024-03-05", "14:30:00") ∧
    extract_date_time "not a date" = Except.error "ValueError" ∧
    parse_datetime "not a date" = Except.error "AttributeError" ∧
    parse_datetime "" = Except.ok ("", "") :=
  ⟨rfl, rfl, rfl, rfl⟩

/-- C8 (amended): the content field of the canonical record depends on the
adapter. IndieWire.to_json always emits a list of strings: the merged record
content when that is a list, the empty list when it is missing or not a
list. Deadline.to_json and Variety.to_json pass the merged record content
value through unchanged and default to the empty string, a bare string, when
the field is absent, so for them content is not always a sequence. -/
theorem C8_content_field :
    (∀ captured obj r, IndieWire.to_json_one captured obj = Except.ok r →
      dget r "content" = Option.some (match dget obj "content" with
        | Option.some (Val.l items) => Val.l items
        | _ => Val.l []) ∧
      ∃ items, dget r "content" = Option.some (Val.l items)) ∧
    (∀ captured obj r, Deadline.to_json_one captured obj = Except.ok r →
      dget r "content" = Option.some ((dget obj "content").getD (Val.s ""))) ∧
    (∀ captured obj r, Variety.to_json_one captured obj = Except.ok r →
      dget r "content" = Option.some ((dget obj "content").getD (Val.s ""))) := by
  have hIW : ∀ captured obj r, IndieWire.to_json_one captured obj = Except.ok r →
      dget r "content" = Option.some (match dget obj "content" with
        | Option.some (Val.l items) => Val.l items
        | _ => Val.l []) := by
    intro captured obj r h
    unfold IndieWire.to_json_one at h
    rcases hpy : pyJoin ((dget obj "category").getD (Val.l [])) with e | sec
    · rw [hpy] at h
      exact absurd h (by simp)
    · rw [hpy] at h
      have hr := Except.ok.inj h
      subst hr
      rfl
  refine ⟨?_, ?_, ?_⟩
  · intro captured obj r h
    have hE := hIW captured obj r h
    refine ⟨hE, ?_⟩
    rcases hc : dget obj "content" with _ | v
    · rw [hc] at hE
      exact ⟨[], hE⟩
    · rcases v with str | items | _
      · rw [hc] at hE
        exact ⟨[], hE⟩
      · rw [hc] at hE
        exact ⟨items, hE⟩
      · rw [hc] at hE
        exact ⟨[], hE⟩
  · intro captured obj r h
    unfold Deadline.to_json_one at h
    rcases hpd : extract_date_time_field (dget obj "date") with e | pub
    · rw [hpd] at h
      exact absurd h (by simp)
    · rw [hpd] at h
      rcases hsec : sourceSectionOf obj with e | sec
      · rw [hsec] at h
        exact absurd h (by simp)
      · rw [hsec] at h
        have hr := Except.ok.inj h
        subst hr
        rfl
  · intro captured obj r h
    unfold Variety.to_json_one at h
    rcases hpd : parse_datetime_field (dget obj "date") with e | pub
    · rw [hpd] at h
      exact absurd h (by simp)
    · rw [hpd] at h
      rcases hsec : sourceSectionOf obj with e | sec
      · rw [hsec] at h
        exact absurd h (by simp)
      · rw [hsec] at h
        have hr := Except.ok.inj h
        subst hr
        rfl

/-- Counterexample for C8 as stated: a merged record without a content field
(a stub whose detail fetch failed) normalizes under Variety.to_json to a
canonical record whose content is the bare empty string, not a sequence. -/
theorem C8_counterexample :
    (Variety.to_json ("2026-10-12", "00:00:00") [[("url", Val.s "u")]]).map
      (fun out => out.map (fun r => dget r "content")) =
      Except.ok [Option.some (Val.s "")] ∧
    Val.isList (Val.s "") = false :=
  ⟨rfl, rfl⟩

/-- Witness for C8 at a concrete record without a content field: IndieWire
normalizes it to the empty list. -/
theorem C8_witness :
    ∃ r, IndieWire.to_json_one ("2026-10-12", "00:00:00") [("title", Val.s "x")] =
      Except.ok r ∧ dget r "content" = Option.some (Val.l []) := by
  refine ⟨_, rfl, ?_⟩
  exact (C8_content_field.1 ("2026-10-12", "00:00:00") [("title", Val.s "x")] _ rfl).1

/-- C2 (amended): for two lists of records whose join key field is present
(with a hashable value) on every record and whose key values are pairwise
distinct within each list, merge_lists_by_key succeeds; for each secondary
record whose key already exists among the primary keys, every field present
in that secondary record overwrites the corresponding field of the mapped
entry (secondary wins per field), fields present only in the primary record
survive; and each secondary record with a new key is inserted verbatim. -/
theorem C2_merge_overlay (list1 list2 : List Record) (key : String)
    (hW2 : ∀ b ∈ list2, RecordWF b)
    (h1 : ∀ r ∈ list1, ∃ k, dget r key = Option.some k ∧ hashable k = true)
    (h2 : ∀ b ∈ list2, ∃ k, dget b key = Option.some k ∧ hashable k = true)
    (hn1 : (keyvals key list1).Nodup) (hn2 : (keyvals key list2).Nodup) :
    ∃ M, merge_lists_by_key list1 list2 key = Except.ok M ∧
      ∀ b ∈ list2, ∀ k, dget b key = Option.some k →
        (∀ a ∈ list1, dget a key = Option.some k →
          ∃ m ∈ M, dget m key = Option.some k ∧
            (∀ f v, dget b f = Option.some v → dget m f = Option.some v) ∧
            (∀ f, dget b f = Option.none → dget m f = dget a f)) ∧
        (k ∉ keyvals key list1 → b ∈ M) :=
  merge_overlay_spec key list1 list2 hW2 h1 h2 hn1 hn2

/-- Counterexample for C2 as stated: when the secondary list repeats a key
that is absent from the primary list, the second such record is not inserted
verbatim (it updates the first one in place), so the output does not contain
it. -/
theorem C2_counterexample :
    merge_lists_by_key [] [[("url", Val.s "a"), ("f", Val.s "x")], [("url", Val.s "a")]]
      "url" = Except.ok [[("url", Val.s "a"), ("f", Val.s "x")]] ∧
    [("url", Val.s "a")] ∉ [[("url", Val.s "a"), ("f", Val.s "x")]] := by
  exact ⟨rfl, by decide⟩

/-- Witness for C2 at a concrete shared key pair. -/
theorem C2_witness :
    ∃ M, merge_lists_by_key [[("url", Val.s "u"), ("f", Val.s "old"), ("g", Val.s "keep")]]
        [[("url", Val.s "u"), ("f", Val.s "new")]] "url" = Except.ok M ∧
      ∃ m ∈ M, dget m "url" = Option.some (Val.s "u") ∧
        dget m "f" = Option.some (Val.s "new") ∧
        dget m "g" = Option.some (Val.s "keep") := by
  obtain ⟨M, hM, hfacts⟩ := C2_merge_overlay
    [[("url", Val.s "u"), ("f", Val.s "old"), ("g", Val.s "keep")]]
    [[("url", Val.s "u"), ("f", Val.s "new")]] "url"
    (by decide) (by decide) (by decide) (by decide) (by decide)
  refine ⟨M, hM, ?_⟩
  obtain ⟨m, hm, hkey, hsec, hprim⟩ :=
    (hfacts [("url", Val.s "u"), ("f", Val.s "new")] (by decide) (Val.s "u") (by decide)).1
      [("url", Val.s "u"), ("f", Val.s "old"), ("g", Val.s "keep")] (by decide) (by decide)
  refine ⟨m, hm, hkey, hsec "f" (Val.s "new") (by decide), ?_⟩
  rw [hprim "g" (by decide)]
  decide

/-- C1 (amended): the process pipelines call
merge_lists_by_key(detailed_stories, stories, key), with the listing stubs
as the secondary list, so for a stub record and a detail record sharing a
join key every field present in the STUB record wins on conflict in the
merged record, fields absent from the stub record but present in the detail
record survive, and a stub whose key has no detail record (its detail fetch
failed) survives verbatim with only stub fields populated; stated for the
Deadline merge step (key url) and the IndieWire merge step (key link), for
dict records with present, hashable, per list distinct join keys. -/
theorem C1_stub_fields_win :
    (∀ detailed_stories stories : List Record,
      (∀ s ∈ stories, RecordWF s) →
      (∀ r ∈ detailed_stories, ∃ k, dget r "url" = Option.some k ∧ hashable k = true) →
      (∀ s ∈ stories, ∃ k, dget s "url" = Option.some k ∧ hashable k = true) →
      (keyvals "url" detailed_stories).Nodup → (keyvals "url" stories).Nodup →
      ∃ M, Deadline.merge_step detailed_stories stories = Except.ok M ∧
        ∀ s ∈ stories, ∀ k, dget s "url" = Option.some k →
          (∀ d ∈ detailed_stories, dget d "url" = Option.some k →
            ∃ m ∈ M, dget m "url" = Option.some k ∧
              (∀ f v, dget s f = Option.some v → dget m f = Option.some v) ∧
              (∀ f, dget s f = Option.none → dget m f = dget d f)) ∧
          (k ∉ keyvals "url" detailed_stories → s ∈ M)) ∧
    (∀ detailed_stories stories : List Record,
      (∀ s ∈ stories, RecordWF s) →
      (∀ r ∈ detailed_stories, ∃ k, dget r "link" = Option.some k ∧ hashable k = true) →
      (∀ s ∈ stories, ∃ k, dget s "link" = Option.some k ∧ hashable k = true) →
      (keyvals "link" detailed_stories).Nodup → (keyvals "link" stories).Nodup →
      ∃ M, IndieWire.merge_step detailed_stories stories = Except.ok M ∧
        ∀ s ∈ stories, ∀ k, dget s "link" = Option.some k →
          (∀ d ∈ detailed_stories, dget d "link" = Option.some k →
            ∃ m ∈ M, dget m "link" = Option.some k ∧
              (∀ f v, dget s f = Option.some v → dget m f = Option.some v) ∧
              (∀ f, dget s f = Option.none → dget m f = dget d f)) ∧
          (k ∉ keyvals "link" detailed_stories → s ∈ M)) :=
  ⟨fun detailed_stories stories hW hD hS hnD hnS =>
      merge_overlay_spec "url" detailed_stories stories hW hD hS hnD hnS,
    fun detailed_stories stories hW hD hS hnD hnS =>
      merge_overlay_spec "link" detailed_stories stories hW hD hS hnD hnS⟩

/-- Counterexample for C1 as stated: through the IndieWire process pipeline,
a stub and a detail record share the key u and both carry a title; the claim
says the detail title wins, but the canonical output carries the stub
title. -/
theorem C1_counterexample :
    (IndieWire.process (fun _ => ⟨200, "page"⟩)
      (fun _ => [[("link", Val.s "u"), ("title", Val.s "stub title")]])
      (fun _ => [[("link", Val.s "u"), ("title", Val.s "detail title"),
        ("content", Val.l ["p1"])]])
      ("2026-10-12", "12:00:00") "seed").map (fun out => out.map (fun r => dget r "title")) =
      Except.ok [Option.some (Val.s "stub title")] ∧
    Val.s "stub title" ≠ Val.s "detail title" := by
  exact ⟨rfl, by decide⟩

/-- Witness for C1 at a concrete stub and detail pair sharing one key. -/
theorem C1_witness :
    ∃ M, Deadline.merge_step
        [[("url", Val.s "u"), ("title", Val.s "detail title"), ("d", Val.s "1")]]
        [[("url", Val.s "u"), ("title", Val.s "stub title")]] = Except.ok M ∧
      ∃ m ∈ M, dget m "url" = Option.some (Val.s "u") ∧
        dget m "title" = Option.some (Val.s "stub title") ∧
        dget m "d" = Option.some (Val.s "1") := by
  obtain ⟨M, hM, hfacts⟩ := C1_stub_fields_win.1
    [[("url", Val.s "u"), ("title", Val.s "detail title"), ("d", Val.s "1")]]
    [[("url", Val.s "u"), ("title", Val.s "stub title")]]
    (by decide) (by decide) (by decide) (by decide) (by decide)
  refine ⟨M, hM, ?_⟩
  obtain ⟨m, hm, hkey, hsec, hprim⟩ :=
    (hfacts [("url", Val.s "u"), ("title", Val.s "stub title")] (by decide)
      (Val.s "u") (by decide)).1
      [("url", Val.s "u"), ("title", Val.s "detail title"), ("d", Val.s "1")]
      (by decide) (by decide)
  refine ⟨m, hm, hkey, hsec "title" (Val.s "stub title") (by decide), ?_⟩
  rw [hprim "d" (by decide)]
  decide

/-- C3 (amended): for two lists of dict records whose join key field is
present (hashable) on every record and whose key values are pairwise
distinct within each list, the merge succeeds and: the output size lies
between max of the input sizes and their sum; the output key list is exactly
the primary keys in order followed by the secondary only keys in secondary
order, each key exactly once; every key of either input appears in the
output; and no field present in a record of either input is dropped from the
merged record with the same key. -/
theorem C3_merge_shape (list1 list2 : List Record) (key : String)
    (hW1 : ∀ r ∈ list1, RecordWF r) (hW2 : ∀ b ∈ list2, RecordWF b)
    (h1 : ∀ r ∈ list1, ∃ k, dget r key = Option.some k ∧ hashable k = true)
    (h2 : ∀ b ∈ list2, ∃ k, dget b key = Option.some k ∧ hashable k = true)
    (hn1 : (keyvals key list1).Nodup) (hn2 : (keyvals key list2).Nodup) :
    ∃ M, merge_lists_by_key list1 list2 key = Except.ok M ∧
      M.map (fun m => dget m key) =
        (keyvals key list1 ++
          (keyvals key list2).filter (fun k => decide (k ∉ keyvals key list1))).map
          Option.some ∧
      max list1.length list2.length ≤ M.length ∧
      M.length ≤ list1.length + list2.length ∧
      (M.map (fun m => dget m key)).Nodup ∧
      (∀ k, Option.some k ∈ M.map (fun m => dget m key) ↔
        (k ∈ keyvals key list1 ∨ k ∈ keyvals key list2)) ∧
      (∀ r ∈ list1 ++ list2, ∀ f, (dget r f).isSome = true →
        ∃ m ∈ M, dget m key = dget r key ∧ (dget m f).isSome = true) := by
  obtain ⟨M, hok, hkeymap, hlA, hlB, hlAB, hnd, hmemiff, hnofield⟩ :=
    merge_shape_spec key list1 list2 hW1 hW2 h1 h2 hn1 hn2
  exact ⟨M, hok, hkeymap, max_le hlA hlB, hlAB, hnd, hmemiff, hnofield⟩

/-- Counterexample for C3 as stated: with a repeated key inside the primary
list, both primary records carry the key field, yet the output has a single
record, below the stated lower bound max of the input lengths. -/
theorem C3_counterexample :
    merge_lists_by_key [[("url", Val.s "a")], [("url", Val.s "a")]] [] "url" =
      Except.ok [[("url", Val.s "a")]] ∧
    ¬ (max 2 0 ≤ 1) := by
  exact ⟨rfl, by decide⟩

/-- Witness for C3 at concrete inputs with a shared key and a fresh key. -/
theorem C3_witness :
    merge_lists_by_key [[("url", Val.s "u"), ("x", Val.s "1")]]
      [[("url", Val.s "u"), ("y", Val.s "2")], [("url", Val.s "v")]] "url" =
      Except.ok [[("url", Val.s "u"), ("x", Val.s "1"), ("y", Val.s "2")], [("url", Val.s "v")]] ∧
    max 1 2 ≤ 2 ∧ 2 ≤ 1 + 2 ∧
    ([[("url", Val.s "u"), ("x", Val.s "1"), ("y", Val.s "2")],
      [("url", Val.s "v")]].map (fun m => dget m "url")).Nodup := by
  obtain ⟨M, hok, hkeymap, hmax, hsum, hnd, hmemiff, hnofield⟩ :=
    C3_merge_shape [[("url", Val.s "u"), ("x", Val.s "1")]]
      [[("url", Val.s "u"), ("y", Val.s "2")], [("url", Val.s "v")]] "url"
      (by decide) (by decide) (by decide) (by decide) (by decide) (by decide)
  have hM0 : merge_lists_by_key [[("url", Val.s "u"), ("x", Val.s "1")]]
      [[("url", Val.s "u"), ("y", Val.s "2")], [("url", Val.s "v")]] "url" =
      Except.ok [[("url", Val.s "u"), ("x", Val.s "1"), ("y", Val.s "2")],
        [("url", Val.s "v")]] := rfl
  have heq : M = [[("url", Val.s "u"), ("x", Val.s "1"), ("y", Val.s "2")],
      [("url", Val.s "v")]] := Except.ok.inj (hok.symm.trans hM0)
  subst heq
  exact ⟨hok, hmax, hsum, hnd⟩

theorem charToDigit_digitChar : ∀ n < 10, charToDigit (digitChar n) = Option.some n := by
  decide

theorem parse2_pad2 (n : Nat) (h : n < 100) (rest : List Char) :
    parse2 (pad2L n ++ rest) = Option.some (n, rest) := by
  show parse2 (digitChar (n / 10) :: digitChar (n % 10) :: rest) = Option.some (n, rest)
  have h1 : n / 10 < 10 := by omega
  have h2 : n % 10 < 10 := by omega
  simp only [parse2, charToDigit_digitChar (n / 10) h1, charToDigit_digitChar (n % 10) h2]
  have hval : 10 * (n / 10) + n % 10 = n := by omega
  rw [hval]

theorem parse4_pad4 (n : Nat) (h : n < 10000) (rest : List Char) :
    parse4 (pad4L n ++ rest) = Option.some (n, rest) := by
  show parse4 (digitChar (n / 1000) :: digitChar (n / 100 % 10) :: digitChar (n / 10 % 10) ::
    digitChar (n % 10) :: rest) = Option.some (n, rest)
  have h1 : n / 1000 < 10 := by omega
  have h2 : n / 100 % 10 < 10 := by omega
  have h3 : n / 10 % 10 < 10 := by omega
  have h4 : n % 10 < 10 := by omega
  simp only [parse4, charToDigit_digitChar (n / 1000) h1,
    charToDigit_digitChar (n / 100 % 10) h2, charToDigit_digitChar (n / 10 % 10) h3,
    charToDigit_digitChar (n % 10) h4]
  have hval : 1000 * (n / 1000) + 100 * (n / 100 % 10) + 10 * (n / 10 % 10) + n % 10 = n := by
    omega
  rw [hval]

theorem digitChar_ne_Z (n : Nat) : ¬ digitChar n = 'Z' := by
  unfold digitChar
  split <;> decide

theorem replaceZL_append (l1 l2 : List Char) :
    replaceZL (l1 ++ l2) = replaceZL l1 ++ replaceZL l2 := by
  induction l1 with
  | nil => rfl
  | cons c rest ih =>
    by_cases hc : c = 'Z'
    · simp [replaceZL, hc, ih]
    · simp [replaceZL, hc, ih]

theorem replaceZL_pad2 (n : Nat) : replaceZL (pad2L n) = pad2L n := by
  simp [pad2L, replaceZL, digitChar_ne_Z]

theorem replaceZL_pad4 (n : Nat) : replaceZL (pad4L n) = pad4L n := by
  simp [pad4L, replaceZL, digitChar_ne_Z]

theorem daysInMonth_le_31 (y m : Nat) : daysInMonth y m ≤ 31 := by
  unfold daysInMonth
  split_ifs <;> omega

theorem parseISOChars_roundtrip (y m d h mi s : Nat)
    (hy1 : 1 ≤ y) (hy2 : y ≤ 9999) (hm1 : 1 ≤ m) (hm2 : m ≤ 12)
    (hd1 : 1 ≤ d) (hd2 : d ≤ daysInMonth y m) (hh : h ≤ 23) (hmi : mi ≤ 59) (hs : s ≤ 59)
    (tail : List Char) (htail : tail = [] ∨ tail = ['+', '0', '0', ':', '0', '0']) :
    parseISOChars (pad4L y ++ ('-' :: (pad2L m ++ ('-' :: (pad2L d ++ ('T' :: (pad2L h ++
      (':' :: (pad2L mi ++ (':' :: (pad2L s ++ tail))))))))))) =
      Option.some ⟨y, m, d, h, mi, s, 0⟩ := by
  have hd31 : d ≤ 31 := le_trans hd2 (daysInMonth_le_31 y m)
  have hp4 := parse4_pad4 y (by omega) ('-' :: (pad2L m ++ ('-' :: (pad2L d ++ ('T' ::
    (pad2L h ++ (':' :: (pad2L mi ++ (':' :: (pad2L s ++ tail))))))))))
  have hpm := parse2_pad2 m (by omega) ('-' :: (pad2L d ++ ('T' :: (pad2L h ++ (':' ::
    (pad2L mi ++ (':' :: (pad2L s ++ tail))))))))
  have hpd := parse2_pad2 d (by omega) ('T' :: (pad2L h ++ (':' :: (pad2L mi ++ (':' ::
    (pad2L s ++ tail))))))
  have hph := parse2_pad2 h (by omega) (':' :: (pad2L mi ++ (':' :: (pad2L s ++ tail))))
  have hpmi := parse2_pad2 mi (by omega) (':' :: (pad2L s ++ tail))
  have hps := parse2_pad2 s (by omega) tail
  have hvalid : PyDateTime.valid ⟨y, m, d, h, mi, s, 0⟩ = true := by
    simp only [PyDateTime.valid, Bool.and_eq_true, decide_eq_true_eq]
    omega
  rcases htail with htl | htl
  · subst htl
    simp only [parseISOChars, parseTimePart, parseOffset, hp4, hpm, hpd, hph, hpmi, hps,
      hvalid, if_true]
  · subst htl
    have hoff1 : parse2 [':', '0', '0'] = Option.none := rfl
    simp only [parseISOChars, parseTimePart, parseOffset, hp4, hpm, hpd, hph, hpmi, hps,
      hvalid, if_true]
    simp [parse2, charToDigit]
    exact hvalid

/-- C6: the ISO path first rewrites the literal Z (as suffix, the only place
it occurs in an ISO-8601 timestamp) to +00:00 and returns the
(YYYY-MM-DD, HH:MM:SS) pair, for every valid whole second ISO-8601 input
with or without the Z suffix; the empty string maps to a pair of empty
strings. -/
theorem C6_iso_normalization (y m d h mi s : Nat)
    (hy1 : 1 ≤ y) (hy2 : y ≤ 9999) (hm1 : 1 ≤ m) (hm2 : m ≤ 12)
    (hd1 : 1 ≤ d) (hd2 : d ≤ daysInMonth y m) (hh : h ≤ 23) (hmi : mi ≤ 59) (hs : s ≤ 59) :
    extract_date_time_from_iso (String.mk (pad4L y ++ ('-' :: (pad2L m ++ ('-' :: (pad2L d ++
        ('T' :: (pad2L h ++ (':' :: (pad2L mi ++ (':' :: (pad2L s ++ ['Z'])))))))))))) =
      Except.ok (String.mk (pad4L y ++ '-' :: pad2L m ++ '-' :: pad2L d),
        String.mk (pad2L h ++ ':' :: pad2L mi ++ ':' :: pad2L s)) ∧
    extract_date_time_from_iso (String.mk (pad4L y ++ ('-' :: (pad2L m ++ ('-' :: (pad2L d ++
        ('T' :: (pad2L h ++ (':' :: (pad2L mi ++ (':' :: pad2L s))))))))))) =
      Except.ok (String.mk (pad4L y ++ '-' :: pad2L m ++ '-' :: pad2L d),
        String.mk (pad2L h ++ ':' :: pad2L mi ++ ':' :: pad2L s)) ∧
    extract_date_time_from_iso "" = Except.ok ("", "") := by
  have hdate : date_isoformat ⟨y, m, d, h, mi, s, 0⟩ =
      String.mk (pad4L y ++ '-' :: pad2L m ++ '-' :: pad2L d) := rfl
  have htime : time_isoformat ⟨y, m, d, h, mi, s, 0⟩ =
      String.mk (pad2L h ++ ':' :: pad2L mi ++ ':' :: pad2L s) := by
    unfold time_isoformat
    simp
  refine ⟨?_, ?_, rfl⟩
  · have hround := parseISOChars_roundtrip y m d h mi s hy1 hy2 hm1 hm2 hd1 hd2 hh hmi hs
      ['+', '0', '0', ':', '0', '0'] (Or.inr rfl)
    have hrep : replaceZL (pad4L y ++ ('-' :: (pad2L m ++ ('-' :: (pad2L d ++ ('T' ::
        (pad2L h ++ (':' :: (pad2L mi ++ (':' :: (pad2L s ++ ['Z']))))))))))) =
        pad4L y ++ ('-' :: (pad2L m ++ ('-' :: (pad2L d ++ ('T' :: (pad2L h ++
        (':' :: (pad2L mi ++ (':' :: (pad2L s ++ ['+', '0', '0', ':', '0', '0']))))))))))  := by
      simp [replaceZL_append, replaceZL_pad2, replaceZL_pad4, replaceZL, pad2L, pad4L, digitChar_ne_Z]
    have hstart : extract_date_time_from_iso (String.mk (pad4L y ++ ('-' :: (pad2L m ++
        ('-' :: (pad2L d ++ ('T' :: (pad2L h ++ (':' :: (pad2L mi ++
        (':' :: (pad2L s ++ ['Z'])))))))))))) =
        (match parseISOChars (replaceZL (pad4L y ++ ('-' :: (pad2L m ++ ('-' :: (pad2L d ++
          ('T' :: (pad2L h ++ (':' :: (pad2L mi ++ (':' :: (pad2L s ++ ['Z'])))))))))))) with
          | Option.some dt => Except.ok (date_isoformat dt, time_isoformat dt)
          | Option.none => Except.error "ValueError") := rfl
    rw [hstart, hrep, hround]
    show Except.ok (date_isoformat ⟨y, m, d, h, mi, s, 0⟩,
      time_isoformat ⟨y, m, d, h, mi, s, 0⟩) = _
    rw [hdate, htime]
  · have hround := parseISOChars_roundtrip y m d h mi s hy1 hy2 hm1 hm2 hd1 hd2 hh hmi hs
      [] (Or.inl rfl)
    rw [List.append_nil] at hround
    have hrep : replaceZL (pad4L y ++ ('-' :: (pad2L m ++ ('-' :: (pad2L d ++ ('T' ::
        (pad2L h ++ (':' :: (pad2L mi ++ (':' :: pad2L s)))))))))) =
        pad4L y ++ ('-' :: (pad2L m ++ ('-' :: (pad2L d ++ ('T' :: (pad2L h ++
        (':' :: (pad2L mi ++ (':' :: pad2L s))))))))) := by
      simp [replaceZL_append, replaceZL_pad2, replaceZL_pad4, replaceZL, pad2L, pad4L, digitChar_ne_Z]
    have hstart : extract_date_time_from_iso (String.mk (pad4L y ++ ('-' :: (pad2L m ++
        ('-' :: (pad2L d ++ ('T' :: (pad2L h ++ (':' :: (pad2L mi ++
        (':' :: pad2L s))))))))))) =
        (match parseISOChars (replaceZL (pad4L y ++ ('-' :: (pad2L m ++ ('-' :: (pad2L d ++
          ('T' :: (pad2L h ++ (':' :: (pad2L mi ++ (':' :: pad2L s))))))))))) with
          | Option.some dt => Except.ok (date_isoformat dt, time_isoformat dt)
          | Option.none => Except.error "ValueError") := rfl
    rw [hstart, hrep, hround]
    show Except.ok (date_isoformat ⟨y, m, d, h, mi, s, 0⟩,
      time_isoformat ⟨y, m, d, h, mi, s, 0⟩) = _
    rw [hdate, htime]

/-- Witness for C6 at the example of the spec. -/
theorem C6_witness :
    extract_date_time_from_iso "2024-03-05T14:30:00Z" = Except.ok ("2024-03-05", "14:30:00") ∧
    extract_date_time_from_iso "" = Except.ok ("", "") := by
  have h := C6_iso_normalization 2024 3 5 14 30 0 (by decide) (by decide) (by decide)
    (by decide) (by decide) (by decide) (by decide) (by decide) (by decide)
  obtain ⟨h1, _, h3⟩ := h
  have hin : String.mk (pad4L 2024 ++ ('-' :: (pad2L 3 ++ ('-' :: (pad2L 5 ++
      ('T' :: (pad2L 14 ++ (':' :: (pad2L 30 ++ (':' :: (pad2L 0 ++ ['Z'])))))))))) ) =
      "2024-03-05T14:30:00Z" := by decide
  have hout1 : String.mk (pad4L 2024 ++ '-' :: pad2L 3 ++ '-' :: pad2L 5) = "2024-03-05" := by
    decide
  have hout2 : String.mk (pad2L 14 ++ ':' :: pad2L 30 ++ ':' :: pad2L 0) = "14:30:00" := by
    decide
  rw [hin, hout1, hout2] at h1
  exact ⟨h1, h3⟩
